import Mathlib

/-!
# Verification of the HDL processing core (`src/core/hdl_processor.py`)

Shallow embedding of the HDL extraction / normalization / identifier-rewrite
pipeline and of the compilation/export orchestration of `HDLProcessor`.

Text is modelled as `List Char` (the sources only handle ASCII HDL text, so
Python's `\w` (resp. `\s`) is embedded as ASCII alphanumeric-or-underscore
(resp. the six ASCII whitespace characters of `str.strip`)).  The regular
expressions of the source are small and anchored, so each one is embedded as
a dedicated deterministic scanner; where the Python engine would backtrack,
the scanner is equivalent by maximal munch because every `+`-group of those
patterns is followed by a character class disjoint from the group (this is
argued at each definition).  `re.search`/`re.sub`/`re.findall` are embedded
as an explicit left-to-right scan carrying the one bit of state the `\b`
anchors need: whether the previous character is a word character.
-/

namespace HdlProteus

/-- ASCII word character: the embedding of the regex class `\w`. -/
def isWordChar (c : Char) : Bool := c.isAlphanum || c == '_'

/-- ASCII whitespace: the embedding of the regex class `\s` and of the
character set stripped by Python's `str.strip`. -/
def isSpaceChar (c : Char) : Bool :=
  c == ' ' || c == '\t' || c == '\n' || c == '\r' || c == '\x0b' || c == '\x0c'

/-- Lower-casing, for `re.IGNORECASE` and `str.lower()`. -/
def lc (c : Char) : Char := c.toLower

/-- `str.lower()` on a whole string. -/
def lcs (s : List Char) : List Char := s.map lc

/-- Python's `sub in s` substring test. -/
def occursB (pat : List Char) : List Char → Bool
  | [] => pat.isPrefixOf []
  | c :: r => pat.isPrefixOf (c :: r) || occursB pat r

/-- `str.rstrip()`. -/
def rstripChars (s : List Char) : List Char := (s.reverse.dropWhile isSpaceChar).reverse

/-- `str.strip()`. -/
def stripChars (s : List Char) : List Char := rstripChars (s.dropWhile isSpaceChar)

/-- `str.split(sep)` for a one-character separator (always returns at least
one piece, like Python). -/
def splitOnChar (sep : Char) : List Char → List (List Char)
  | [] => [[]]
  | c :: r =>
    if c == sep then [] :: splitOnChar sep r
    else
      match splitOnChar sep r with
      | l :: ls => (c :: l) :: ls
      | [] => [[c]]

/-- `sep.join(pieces)` for a one-character separator. -/
def joinWithChar (sep : Char) : List (List Char) → List Char
  | [] => []
  | [l] => l
  | l :: ls => l ++ sep :: joinWithChar sep ls

/-- `os.path.basename` (paths in this codebase use `/`). -/
def basename (p : List Char) : List Char := (splitOnChar '/' p).getLastD p

/-- `os.path.join` for the two-argument uses in the source. -/
def joinPath (a b : List Char) : List Char := a ++ '/' :: b

/-! ## String literals from the source -/

def kwEntity : List Char := "entity".data
def kwArchitecture : List Char := "architecture".data
def kwOf : List Char := "of".data
def kwIs : List Char := "is".data
def kwModule : List Char := "module".data
def kwEndmodule : List Char := "endmodule".data
def kwSignal : List Char := "signal".data
def kwWire : List Char := "wire".data
def kwReg : List Char := "reg".data
def kwProcess : List Char := "process".data
def kwAlways : List Char := "always".data
def kwLibrary : List Char := "library".data
def kwUse : List Char := "use".data
def kwLibraryIeee : List Char := "library ieee".data
def kwInclude : List Char := "`include".data

def strVhdl : List Char := "vhdl".data
def strVerilog : List Char := "verilog".data
def strSystemverilog : List Char := "systemverilog".data
def strV : List Char := "v".data

def fence3 : List Char := "```".data
def fenceClose : List Char := "\n```".data

def markerTestbench : List Char := "testbench".data
def markerTbUnd : List Char := "tb_".data
def markerUndTb : List Char := "_tb".data
def markerTestUnd : List Char := "test_".data
def markerInitial : List Char := "initial".data
def markerMonitor : List Char := "$monitor".data

def msgNeedEntity : List Char := "VHDL code must contain an entity declaration".data
def msgNeedArch : List Char := "VHDL code must contain an architecture declaration".data
def msgNeedModule : List Char := "Verilog code must contain a module declaration".data
def msgNeedEndmodule : List Char := "Verilog code must contain an endmodule statement".data

/-! ## One-position pattern attempts

Each `match…` function attempts the body of one source regex at the head of
the input (the leading `\b` is handled by the search/sub scanners below) and
returns the captured groups together with the remainder after the match. -/

/-- A case-insensitive literal (the pattern argument is given lower case):
one regex literal under `re.IGNORECASE`. -/
def matchLitCI : List Char → List Char → Option (List Char)
  | [], s => some s
  | _ :: _, [] => none
  | p :: ps, c :: s => if lc c == p then matchLitCI ps s else none

/-- A case-sensitive literal (for the one pattern compiled without
`re.IGNORECASE`). -/
def matchLitCS : List Char → List Char → Option (List Char)
  | [], s => some s
  | _ :: _, [] => none
  | p :: ps, c :: s => if c == p then matchLitCS ps s else none

/-- `\s+`, maximal munch. -/
def matchSpaces1 : List Char → Option (List Char)
  | [] => none
  | c :: r => if isSpaceChar c then some (r.dropWhile isSpaceChar) else none

/-- `\w+` without capture, maximal munch. -/
def matchWords1 : List Char → Option (List Char)
  | [] => none
  | c :: r => if isWordChar c then some (r.dropWhile isWordChar) else none

/-- `(\w+)`, maximal munch, returning the captured text. -/
def matchWord1 : List Char → Option (List Char × List Char)
  | [] => none
  | c :: r => if isWordChar c then some (c :: r.takeWhile isWordChar, r.dropWhile isWordChar) else none

/-- `([\w.]+)`, maximal munch (for the `use` clause pattern). -/
def matchWordDot1 : List Char → Option (List Char × List Char)
  | [] => none
  | c :: r =>
    if isWordChar c || c == '.' then
      some (c :: r.takeWhile (fun d => isWordChar d || d == '.'),
            r.dropWhile (fun d => isWordChar d || d == '.'))
    else none

/-- Trailing `\b` after a word: the next character must not be a word
character (or the input ends). -/
def chkNoWord : List Char → Option (List Char)
  | [] => some []
  | c :: r => if isWordChar c then none else some (c :: r)

/-- Body of `entity\s+(\w+)\s+is` (IGNORECASE): maximal munch is equivalent
to the engine's backtracking because `\s` matches no word character and the
literals start with non-space characters. -/
def matchEntityDecl (s : List Char) : Option (List Char × List Char) := do
  let s ← matchLitCI kwEntity s
  let s ← matchSpaces1 s
  let (w, s) ← matchWord1 s
  let s ← matchSpaces1 s
  let s ← matchLitCI kwIs s
  pure (w, s)

/-- Body of `entity\s+\w+\s+is` (the validator's capture-free variant). -/
def matchEntityV (s : List Char) : Option (List Char) := do
  let s ← matchLitCI kwEntity s
  let s ← matchSpaces1 s
  let s ← matchWords1 s
  let s ← matchSpaces1 s
  matchLitCI kwIs s

/-- Body of `architecture\s+(\w+)\s+of\s+(\w+)\s+is` (IGNORECASE). -/
def matchArchDecl (s : List Char) : Option (List Char × List Char × List Char) := do
  let s ← matchLitCI kwArchitecture s
  let s ← matchSpaces1 s
  let (w1, s) ← matchWord1 s
  let s ← matchSpaces1 s
  let s ← matchLitCI kwOf s
  let s ← matchSpaces1 s
  let (w2, s) ← matchWord1 s
  let s ← matchSpaces1 s
  let s ← matchLitCI kwIs s
  pure (w1, w2, s)

/-- Body of `architecture\s+\w+\s+of\s+\w+\s+is` (the validator's variant). -/
def matchArchV (s : List Char) : Option (List Char) := do
  let s ← matchLitCI kwArchitecture s
  let s ← matchSpaces1 s
  let s ← matchWords1 s
  let s ← matchSpaces1 s
  let s ← matchLitCI kwOf s
  let s ← matchSpaces1 s
  let s ← matchWords1 s
  let s ← matchSpaces1 s
  matchLitCI kwIs s

/-- Body of `module\s+(\w+)` (IGNORECASE). -/
def matchModuleDecl (s : List Char) : Option (List Char × List Char) := do
  let s ← matchLitCI kwModule s
  let s ← matchSpaces1 s
  matchWord1 s

/-- Body of `module\s+\w+` (the validator's variant). -/
def matchModuleV (s : List Char) : Option (List Char) := do
  let s ← matchLitCI kwModule s
  let s ← matchSpaces1 s
  matchWords1 s

/-- Body of `endmodule\b`. -/
def matchEndmoduleV (s : List Char) : Option (List Char) := do
  let s ← matchLitCI kwEndmodule s
  chkNoWord s

/-- Body of `entity\s+OLD\s+is` where `OLD` is a `re.escape`d literal under
`re.IGNORECASE`; the theorems only instantiate `old` with nonempty
word-identifiers, for which maximal munch is again exact. -/
def matchEntityOf (old : List Char) (s : List Char) : Option (List Char) := do
  let s ← matchLitCI kwEntity s
  let s ← matchSpaces1 s
  let s ← matchLitCI (lcs old) s
  let s ← matchSpaces1 s
  matchLitCI kwIs s

/-- Body of `architecture\s+(\w+)\s+of\s+OLD\s+is` (IGNORECASE). -/
def matchArchOf (old : List Char) (s : List Char) : Option (List Char × List Char) := do
  let s ← matchLitCI kwArchitecture s
  let s ← matchSpaces1 s
  let (w, s) ← matchWord1 s
  let s ← matchSpaces1 s
  let s ← matchLitCI kwOf s
  let s ← matchSpaces1 s
  let s ← matchLitCI (lcs old) s
  let s ← matchSpaces1 s
  let s2 ← matchLitCI kwIs s
  pure (w, s2)

/-- Body of `module\s+OLD\b` (IGNORECASE). -/
def matchModuleOf (old : List Char) (s : List Char) : Option (List Char) := do
  let s ← matchLitCI kwModule s
  let s ← matchSpaces1 s
  let s ← matchLitCI (lcs old) s
  chkNoWord s

/-! ## `re.search`, `re.sub`, `re.findall`

All patterns above begin `\b` followed by a word character, so the anchor
holds exactly when the previous character is not a word character (or the
position is the start).  `prevW` carries that bit. -/

/-- `re.search` for a `\b`-anchored pattern: first successful attempt,
scanning left to right.  (No pattern used here can match at the empty
remainder, so stopping at `[]` is exact.) -/
def reSearch {α : Type} (att : List Char → Option α) : Bool → List Char → Option α
  | _, [] => none
  | prevW, c :: r =>
    match (if prevW then none else att (c :: r)) with
    | some a => some a
    | none => reSearch att (isWordChar c) r

/-- `re.sub` for a `\b`-anchored pattern: every non-overlapping match is
replaced, and scanning resumes after the matched text.  The attempt returns
the replacement text (with back-references already instantiated) and the
remainder.  Every pattern substituted in the source ends in a word character
(`is`, or a word-identifier), so the boundary bit after a match is `true`.
`fuel` makes the recursion structural; any `fuel ≥ s.length` computes the
result because each step consumes at least one character. -/
def reSubAux (att : List Char → Option (List Char × List Char)) :
    Nat → Bool → List Char → List Char
  | 0, _, s => s
  | _ + 1, _, [] => []
  | fuel + 1, prevW, c :: r =>
    match (if prevW then none else att (c :: r)) with
    | some (repl, rest) => repl ++ reSubAux att fuel true rest
    | none => c :: reSubAux att fuel (isWordChar c) r

/-- Number of matches found by `re.findall` for a `\b`-anchored pattern; the
attempt also returns the boundary bit after its matched text. -/
def countMatches (att : List Char → Option (Bool × List Char)) :
    Nat → Bool → List Char → Nat
  | 0, _, _ => 0
  | _ + 1, _, [] => 0
  | fuel + 1, prevW, c :: r =>
    match (if prevW then none else att (c :: r)) with
    | some (pw, rest) => countMatches att fuel pw rest + 1
    | none => countMatches att fuel (isWordChar c) r

/-- The capture list produced by `re.findall`; `anchored` is false for the
one pattern without a leading `\b` (the backtick-include pattern). -/
def collectMatches (att : List Char → Option (List Char × Bool × List Char)) (anchored : Bool) :
    Nat → Bool → List Char → List (List Char)
  | 0, _, _ => []
  | _ + 1, _, [] => []
  | fuel + 1, prevW, c :: r =>
    match (if anchored && prevW then none else att (c :: r)) with
    | some (w, pw, rest) => w :: collectMatches att anchored fuel pw rest
    | none => collectMatches att anchored fuel (isWordChar c) r

/-! ## Fenced-block extraction

The pattern is ` ```(vhdl|verilog|systemverilog)\s*\n(.*?)\n``` ` with
`re.DOTALL | re.IGNORECASE`.  Here backtracking is real: the greedy `\s*`
gives characters back until the following `\n` matches and the rest of the
pattern succeeds, and `(.*?)` is lazy.  `wsNlBody` implements exactly that
preference order; `lazyBody` finds the shortest group-2 text followed by the
closing fence. -/

/-- `(.*?)\n``` ` under DOTALL: the shortest prefix followed by the closing
fence; returns the captured group 2. -/
def lazyBody : List Char → Option (List Char)
  | [] => none
  | c :: r =>
    if fenceClose.isPrefixOf (c :: r) then some []
    else (lazyBody r).map (c :: ·)

/-- `\s*\n` followed by `lazyBody`, with the engine's greedy preference:
consume a further whitespace character if the rest can still succeed,
otherwise use the current `\n` as the mandatory newline. -/
def wsNlBody : List Char → Option (List Char)
  | [] => none
  | c :: r =>
    if isSpaceChar c then
      match wsNlBody r with
      | some g => some g
      | none => if c == '\n' then lazyBody r else none
    else none

/-- One language-tag alternative followed by the rest of the fence pattern. -/
def tryFenceTag (tag : List Char) (s : List Char) : Option (List Char) := do
  let s ← matchLitCI tag s
  wsNlBody s

/-- One attempt of the whole fence pattern; returns the lower-cased tag
(`match.group(1).lower()`) and the group-2 text.  The alternatives are tried
in the pattern's order. -/
def matchFenceAt (s : List Char) : Option (List Char × List Char) :=
  match matchLitCI fence3 s with
  | none => none
  | some s1 =>
    match tryFenceTag strVhdl s1 with
    | some g => some (strVhdl, g)
    | none =>
      match tryFenceTag strVerilog s1 with
      | some g => some (strVerilog, g)
      | none =>
        match tryFenceTag strSystemverilog s1 with
        | some g => some (strSystemverilog, g)
        | none => none

/-- `re.search` of the fence pattern (no `\b`: an attempt at every
position). -/
def searchFence : List Char → Option (List Char × List Char)
  | [] => none
  | c :: r =>
    match matchFenceAt (c :: r) with
    | some x => some x
    | none => searchFence r

/-! ## `HDLProcessor` private helpers -/

def vhdlIndicators : List (List Char) := [kwEntity, kwArchitecture, kwLibraryIeee]
def verilogIndicators : List (List Char) := [kwModule, kwEndmodule, kwAlways, kwWire]

/-- `HDLProcessor._extract_code_and_language`. -/
def extract_code_and_language (content : List Char) : List Char × List Char :=
  match searchFence content with
  | some (tag, g2) =>
    let language := if tag == strVerilog || tag == strSystemverilog then strVerilog else tag
    (language, stripChars g2)
  | none =>
    let content_lower := lcs content
    if vhdlIndicators.any (fun k => occursB k content_lower) then (strVhdl, stripChars content)
    else if verilogIndicators.any (fun k => occursB k content_lower) then
      (strVerilog, stripChars content)
    else (strVhdl, stripChars content)

/-- `HDLProcessor._clean_code`: rstrip every line, drop blank lines at both
ends, re-join. -/
def clean_code (code : List Char) : List Char :=
  let lines := (splitOnChar '\n' code).map rstripChars
  let lines := lines.dropWhile List.isEmpty
  let lines := (lines.reverse.dropWhile List.isEmpty).reverse
  joinWithChar '\n' lines

/-- `HDLProcessor._validate_basic_syntax`; a raised `ValueError` is the
`.error` case. -/
def validate_basic_syntax' (code language : List Char) : Except (List Char) Unit :=
  if language == strVhdl then
    if (reSearch matchEntityV false code).isSome = false then .error msgNeedEntity
    else if (reSearch matchArchV false code).isSome = false then .error msgNeedArch
    else .ok ()
  else if language == strVerilog then
    if (reSearch matchModuleV false code).isSome = false then .error msgNeedModule
    else if (reSearch matchEndmoduleV false code).isSome = false then .error msgNeedEndmodule
    else .ok ()
  else .ok ()

/-- `HDLProcessor._extract_entity_name`. -/
def extract_entity_name (code language : List Char) : Option (List Char) :=
  if language == strVhdl then (reSearch matchEntityDecl false code).map (·.1)
  else if language == strVerilog then (reSearch matchModuleDecl false code).map (·.1)
  else none

/-- The instantiated replacement `f'entity {new_name} is'`. -/
def replEntity (new : List Char) : List Char := kwEntity ++ ' ' :: new ++ ' ' :: kwIs

/-- The instantiated replacement `rf'architecture \1 of {new_name} is'`. -/
def replArch (w new : List Char) : List Char :=
  kwArchitecture ++ ' ' :: w ++ ' ' :: kwOf ++ ' ' :: new ++ ' ' :: kwIs

/-- The instantiated replacement `f'module {new_name}'`. -/
def replModule (new : List Char) : List Char := kwModule ++ ' ' :: new

def attEntityOf (old new : List Char) (s : List Char) : Option (List Char × List Char) :=
  (matchEntityOf old s).map (fun rest => (replEntity new, rest))

def attArchOf (old new : List Char) (s : List Char) : Option (List Char × List Char) :=
  (matchArchOf old s).map (fun p => (replArch p.1 new, p.2))

def attModuleOf (old new : List Char) (s : List Char) : Option (List Char × List Char) :=
  (matchModuleOf old s).map (fun rest => (replModule new, rest))

/-- `HDLProcessor._replace_entity_name`. -/
def replace_entity_name (code old_name new_name language : List Char) : List Char :=
  if language == strVhdl then
    let code1 := reSubAux (attEntityOf old_name new_name) code.length false code
    reSubAux (attArchOf old_name new_name) code1.length false code1
  else if language == strVerilog then
    reSubAux (attModuleOf old_name new_name) code.length false code
  else code

def vhdlTbMarkers : List (List Char) := [markerTestbench, markerTbUnd, markerUndTb, markerTestUnd]
def verilogTbMarkers : List (List Char) :=
  [markerTestbench, markerTbUnd, markerUndTb, markerInitial, markerMonitor]

/-- `HDLProcessor._detect_testbench`. -/
def detect_testbench (code language : List Char) : Bool :=
  if language == strVhdl then vhdlTbMarkers.any (fun k => occursB k (lcs code))
  else if language == strVerilog then verilogTbMarkers.any (fun k => occursB k (lcs code))
  else false

/-- Attempt of `library\s+(\w+)` (IGNORECASE). -/
def attLibrary (s : List Char) : Option (List Char × Bool × List Char) := do
  let s ← matchLitCI kwLibrary s
  let s ← matchSpaces1 s
  let (w, rest) ← matchWord1 s
  pure (w, true, rest)

/-- Attempt of `use\s+([\w.]+)` (IGNORECASE); the boundary bit after the
match is the word-character status of the capture's last character. -/
def attUse (s : List Char) : Option (List Char × Bool × List Char) := do
  let s ← matchLitCI kwUse s
  let s ← matchSpaces1 s
  let (w, rest) ← matchWordDot1 s
  pure (w, (match w.reverse with | [] => false | d :: _ => isWordChar d), rest)

/-- Attempt of `` `include\s+"([^"]+)" `` (case-sensitive, not
`\b`-anchored). -/
def attInclude (s : List Char) : Option (List Char × Bool × List Char) := do
  let s ← matchLitCS kwInclude s
  let s ← matchSpaces1 s
  match s with
  | '\"' :: r =>
    let w := r.takeWhile (fun d => d ≠ '\"')
    match r.dropWhile (fun d => d ≠ '\"') with
    | '\"' :: rest => if w.isEmpty then none else pure (w, false, rest)
    | _ => none
  | _ => none

/-- `HDLProcessor._extract_libraries`.  Python's `list(set(...))` iterates
in an unspecified order; it is embedded as first-occurrence deduplication. -/
def extract_libraries (code language : List Char) : List (List Char) :=
  if language == strVhdl then
    let libs := collectMatches attLibrary true code.length false code
    let uses := (collectMatches attUse true code.length false code).map
      (fun u => (splitOnChar '.' u).headD [])
    (libs ++ uses).eraseDups
  else if language == strVerilog then
    (collectMatches attInclude false code.length false code).eraseDups
  else []

/-- Attempt of `signal\s+\w+` (IGNORECASE). -/
def attSignal (s : List Char) : Option (Bool × List Char) := do
  let s ← matchLitCI kwSignal s
  let s ← matchSpaces1 s
  let rest ← matchWords1 s
  pure (true, rest)

/-- Attempt of `wire\s+` (IGNORECASE); the matched text ends in whitespace. -/
def attWire (s : List Char) : Option (Bool × List Char) := do
  let s ← matchLitCI kwWire s
  let rest ← matchSpaces1 s
  pure (false, rest)

/-- Attempt of `reg\s+` (IGNORECASE). -/
def attReg (s : List Char) : Option (Bool × List Char) := do
  let s ← matchLitCI kwReg s
  let rest ← matchSpaces1 s
  pure (false, rest)

/-- Attempt of `process\b` (IGNORECASE). -/
def attProcess (s : List Char) : Option (Bool × List Char) := do
  let s ← matchLitCI kwProcess s
  let rest ← chkNoWord s
  pure (true, rest)

/-- Attempt of `always\b` (IGNORECASE). -/
def attAlways (s : List Char) : Option (Bool × List Char) := do
  let s ← matchLitCI kwAlways s
  let rest ← chkNoWord s
  pure (true, rest)

/-- `HDLProcessor._count_signals`. -/
def count_signals (code language : List Char) : Nat :=
  if language == strVhdl then countMatches attSignal code.length false code
  else if language == strVerilog then
    countMatches attWire code.length false code + countMatches attReg code.length false code
  else 0

/-- `HDLProcessor._count_processes`. -/
def count_processes (code language : List Char) : Nat :=
  if language == strVhdl then countMatches attProcess code.length false code
  else if language == strVerilog then countMatches attAlways code.length false code
  else 0

/-! ## Data model -/

/-- JSON values, for the metadata dictionary and the export manifest.
Objects keep Python's dict insertion order as an association list. -/
inductive Jv where
  | jnull : Jv
  | jbool : Bool → Jv
  | jint : Nat → Jv
  | jstr : List Char → Jv
  | jarr : List Jv → Jv
  | jobj : List (List Char × Jv) → Jv

def keyOriginalEntityName : List Char := "original_entity_name".data
def keyLinesOfCode : List Char := "lines_of_code".data
def keyHasTestbench : List Char := "has_testbench".data
def keyLibrariesUsed : List Char := "libraries_used".data
def keySignalsCount : List Char := "signals_count".data
def keyProcessesCount : List Char := "processes_count".data
def keyProjectName : List Char := "project_name".data
def keyHdlLanguage : List Char := "hdl_language".data
def keyGeneratedBy : List Char := "generated_by".data
def keyCompilationSuccess : List Char := "compilation_success".data
def keyMetadata : List Char := "metadata".data

/-- `@dataclass HDLCode`. -/
structure HDLCode where
  content : List Char
  language : List Char
  entity_name : List Char
  file_extension : List Char
  metadata : Option (List (List Char × Jv)) := none

/-- `@dataclass CompilationResult`.  `compilation_time` is wall-clock time
(a float in the source) and is not modelled; it is kept as a constant-zero
field so the record shape matches. -/
structure CompilationResult where
  success : Bool
  entity_name : List Char
  language : List Char
  build_files : List (List Char)
  error_message : Option (List Char) := none
  warnings : Option (List (List Char)) := none
  compilation_time : Nat := 0

/-- `@dataclass ProjectExport`.  `file_size`/`export_time` are filesystem
and wall-clock quantities, kept as constant-zero fields. -/
structure ProjectExport where
  success : Bool
  file_path : List Char
  file_size : Nat := 0
  export_time : Nat := 0
  error_message : Option (List Char) := none

/-- The metadata dictionary built in `parse_hdl_code` (lines 116-123). -/
def parse_metadata (original_name : Option (List Char)) (code language : List Char) :
    List (List Char × Jv) :=
  [(keyOriginalEntityName, match original_name with | some o => Jv.jstr o | none => Jv.jnull),
   (keyLinesOfCode, Jv.jint (splitOnChar '\n' code).length),
   (keyHasTestbench, Jv.jbool (detect_testbench code language)),
   (keyLibrariesUsed, Jv.jarr ((extract_libraries code language).map Jv.jstr)),
   (keySignalsCount, Jv.jint (count_signals code language)),
   (keyProcessesCount, Jv.jint (count_processes code language))]

/-- `HDLProcessor.parse_hdl_code`; a raised `ValueError` is the `.error`
case. -/
def parse_hdl_code (ai_response_content circuit_name : List Char) :
    Except (List Char) HDLCode :=
  let el := extract_code_and_language ai_response_content
  let language := el.1
  let code0 := clean_code el.2
  match validate_basic_syntax' code0 language with
  | .error e => .error e
  | .ok _ =>
    let original_name := extract_entity_name code0 language
    let code :=
      match original_name with
      | some o => if o ≠ circuit_name then replace_entity_name code0 o circuit_name language
                  else code0
      | none => code0
    let file_extension := if language == strVhdl then strVhdl else strV
    Except.ok
      { content := code
        language := language
        entity_name := circuit_name
        file_extension := file_extension
        metadata := some (parse_metadata original_name code language) }

/-! ## Compilation orchestration

The two compiler executables are external collaborators; one invocation of
`subprocess.run` is modelled by an oracle mapping the argument vector to an
outcome: normal completion (return code and captured stderr), expiry of the
configured timeout (`subprocess.TimeoutExpired`), or any other raised
exception.  `os.listdir` filtered by `os.path.isfile` is a second oracle.
`os.makedirs` and the write of the HDL source file are modelled as
infallible. -/

inductive RunOutcome where
  | completed : Int → List Char → RunOutcome
  | timedOut : RunOutcome
  | raised : List Char → RunOutcome

structure CompilerWorld where
  run : List (List Char) → RunOutcome
  listdir : List Char → List (List Char)

/-- The configuration fields read in `HDLProcessor.__init__`. -/
structure HPConfig where
  ghdl_path : List Char
  iverilog_path : List Char
  work_directory : List Char
  timeout : Nat
  vhdl_flags : List (List Char)
  verilog_flags : List (List Char)

def strDashA : List Char := "-a".data
def strDashE : List Char := "-e".data
def strDashO : List Char := "-o".data
def strWorkdirEq : List Char := "--workdir=".data
def strDotOut : List Char := ".out".data
def msgTimeoutPre : List Char := "Compilation timeout after ".data
def msgTimeoutPost : List Char := " seconds".data
def msgUnsupportedPre : List Char := "Unsupported HDL language: ".data

/-- `f"Compilation timeout after {self.timeout} seconds"`. -/
def timeoutMsg (timeout : Nat) : List Char :=
  msgTimeoutPre ++ (toString timeout).data ++ msgTimeoutPost

/-- `HDLProcessor._compile_vhdl` — total: the internal `try` converts both
`TimeoutExpired` and any other exception into a failed result. -/
def compile_vhdl (w : CompilerWorld) (cfg : HPConfig)
    (entity_name hdl_file build_dir : List Char) : CompilationResult :=
  let analyze_cmd := [cfg.ghdl_path, strDashA, strWorkdirEq ++ build_dir]
      ++ cfg.vhdl_flags ++ [hdl_file]
  match w.run analyze_cmd with
  | .timedOut =>
    { success := false, entity_name, language := strVhdl, build_files := [],
      error_message := some (timeoutMsg cfg.timeout) }
  | .raised m =>
    { success := false, entity_name, language := strVhdl, build_files := [],
      error_message := some m }
  | .completed rc err =>
    if rc ≠ 0 then
      { success := false, entity_name, language := strVhdl, build_files := [],
        error_message := some err }
    else
      let warnings1 : List (List Char) := if err ≠ [] then [err] else []
      let elaborate_cmd := [cfg.ghdl_path, strDashE, strWorkdirEq ++ build_dir, entity_name]
      match w.run elaborate_cmd with
      | .timedOut =>
        { success := false, entity_name, language := strVhdl, build_files := [],
          error_message := some (timeoutMsg cfg.timeout) }
      | .raised m =>
        { success := false, entity_name, language := strVhdl, build_files := [],
          error_message := some m }
      | .completed rc2 err2 =>
        if rc2 ≠ 0 then
          { success := false, entity_name, language := strVhdl, build_files := [],
            error_message := some err2 }
        else
          { success := true, entity_name, language := strVhdl,
            build_files := w.listdir build_dir,
            warnings := some (warnings1 ++ (if err2 ≠ [] then [err2] else [])) }

/-- `HDLProcessor._compile_verilog` — total for the same reason. -/
def compile_verilog (w : CompilerWorld) (cfg : HPConfig)
    (entity_name hdl_file build_dir : List Char) : CompilationResult :=
  let output_file := joinPath build_dir (entity_name ++ strDotOut)
  let compile_cmd := [cfg.iverilog_path, strDashO, output_file]
      ++ cfg.verilog_flags ++ [hdl_file]
  match w.run compile_cmd with
  | .timedOut =>
    { success := false, entity_name, language := strVerilog, build_files := [],
      error_message := some (timeoutMsg cfg.timeout) }
  | .raised m =>
    { success := false, entity_name, language := strVerilog, build_files := [],
      error_message := some m }
  | .completed rc err =>
    if rc ≠ 0 then
      { success := false, entity_name, language := strVerilog, build_files := [],
        error_message := some err }
    else
      { success := true, entity_name, language := strVerilog,
        build_files := w.listdir build_dir,
        warnings := some (if err ≠ [] then [err] else []) }

/-- `HDLProcessor.compile_hdl`.  The `Except` layer records where a Python
exception could propagate out of the function: the `try` block's only raise
(the unsupported-language `ValueError`) is modelled inside the inner
`Except`, and the surrounding `except Exception` handler converts it to a
failed `CompilationResult`. -/
def compile_hdl (w : CompilerWorld) (cfg : HPConfig) (hdl : HDLCode)
    (session_id : List Char) : Except (List Char) CompilationResult :=
  let build_dir := joinPath cfg.work_directory session_id
  let hdl_file := joinPath build_dir (hdl.entity_name ++ '.' :: hdl.file_extension)
  let inner : Except (List Char) CompilationResult :=
    if hdl.language == strVhdl then
      .ok (compile_vhdl w cfg hdl.entity_name hdl_file build_dir)
    else if hdl.language == strVerilog then
      .ok (compile_verilog w cfg hdl.entity_name hdl_file build_dir)
    else .error (msgUnsupportedPre ++ hdl.language)
  match inner with
  | .ok r => .ok r
  | .error e =>
    .ok { success := false, entity_name := hdl.entity_name, language := hdl.language,
          build_files := [], error_message := some e }

/-! ## Export packaging

The archive is modelled as its ordered member list.  `zipfile.write` copies
a file's bytes out of the filesystem (an oracle `fs` from path to optional
content); `zipfile.writestr` embeds a string.  JSON serialization of the
manifest (`_create_json_string`) is kept structural: the member records the
manifest object itself. -/

inductive ZipData where
  | fromFile : List Char → List Char → ZipData
  | manifestJson : List (List Char × Jv) → ZipData
  | text : List Char → ZipData

def strHdlAiProteus : List Char := "HDL AI Proteus".data
def nameProjectInfo : List Char := "project_info.json".data
def nameReadme : List Char := "README.txt".data
def strPdsprj : List Char := "pdsprj".data
def strNone : List Char := "None".data
def strNA : List Char := "N/A".data
def strTrue : List Char := "True".data
def strFalse : List Char := "False".data
def strYes : List Char := "Yes".data
def strNo : List Char := "No".data
def strSUCCESS : List Char := "SUCCESS".data
def strFAILED : List Char := "FAILED".data

/-- `f"{x}"` for an optional string (Python prints `None`). -/
def pyOptStr (o : Option (List Char)) : List Char :=
  match o with
  | some s => s
  | none => strNone

/-- `dict.get` on the metadata association list. -/
def metaGet (m : List (List Char × Jv)) (k : List Char) : Option Jv :=
  (m.find? (fun p => p.1 == k)).map (fun p => p.2)

/-- `str.upper()` (ASCII). -/
def toUpperChars (s : List Char) : List Char := s.map Char.toUpper

/-- `sep.join(pieces)` for a multi-character separator. -/
def joinWithList (sep : List Char) : List (List Char) → List Char
  | [] => []
  | [l] => l
  | l :: ls => l ++ sep ++ joinWithList sep ls

/-- `metadata.get(key, 'N/A')` formatted into the README (the keys looked
up this way always hold ints in the dictionaries `parse_hdl_code` builds). -/
def fmtMetaInt (m : List (List Char × Jv)) (k : List Char) : List Char :=
  match metaGet m k with
  | some (Jv.jint n) => (toString n).data
  | some _ => []
  | none => strNA

/-- `', '.join(metadata.get('libraries_used', [])) or 'None'`. -/
def fmtMetaLibs (m : List (List Char × Jv)) : List Char :=
  match metaGet m keyLibrariesUsed with
  | some (Jv.jarr xs) =>
    let joined := joinWithList (", ".data)
      (xs.filterMap (fun j => match j with | Jv.jstr s => some s | _ => none))
    if joined.isEmpty then strNone else joined
  | _ => strNone

/-- `'Yes' if metadata.get('has_testbench', False) else 'No'`. -/
def fmtMetaTb (m : List (List Char × Jv)) : List Char :=
  match metaGet m keyHasTestbench with
  | some (Jv.jbool b) => if b then strYes else strNo
  | _ => strNo

def readmeTitle : List Char := "HDL AI Proteus Project - ".data
def readmeInfoPre : List Char := "\n\nProject Information:\n- Entity/Module Name: ".data
def readmeLangPre : List Char := "\n- HDL Language: ".data
def readmeGenBy : List Char := "\n- Generated by: HDL AI Proteus\n- Compilation Status: ".data
def readmeFilesPre : List Char := "\n\nFile Contents:\n- ".data
def readmeFilesPost : List Char :=
  ": Main HDL source file\n- project_info.json: Project metadata\n- README.txt: This file\n\n".data
def readmeStatsPre : List Char := "Code Statistics:\n- Lines of Code: ".data
def readmeStatsSignals : List Char := "\n- Signals/Wires: ".data
def readmeStatsProcesses : List Char := "\n- Processes/Always Blocks: ".data
def readmeStatsLibs : List Char := "\n- Libraries Used: ".data
def readmeStatsTb : List Char := "\n- Contains Testbench: ".data
def readmeWarningsPre : List Char := "Compilation Warnings:\n".data
def readmeErrorPre : List Char := "Compilation Error:\n".data
def readmeBlockEnd : List Char := "\n\n".data
def readmeUsage : List Char :=
  ("Usage Instructions:\n1. Extract this .pdsprj file to access the HDL source code\n" ++
   "2. Import the HDL file into your preferred simulation tool\n" ++
   "3. Verify the design meets your requirements\n" ++
   "4. Modify as needed for your specific application\n\n" ++
   "Note: This project was generated using AI and should be reviewed\n" ++
   "before use in production applications.\n").data

/-- `HDLProcessor._generate_project_readme`. -/
def generate_project_readme (hdl : HDLCode) (cr : CompilationResult) : List Char :=
  let base :=
    readmeTitle ++ hdl.entity_name ++ '\n' ::
    (List.replicate (30 + hdl.entity_name.length) '=') ++
    readmeInfoPre ++ hdl.entity_name ++
    readmeLangPre ++ toUpperChars hdl.language ++
    readmeGenBy ++ (if cr.success then strSUCCESS else strFAILED) ++
    readmeFilesPre ++ hdl.entity_name ++ '.' :: hdl.file_extension ++
    readmeFilesPost
  let stats :=
    match hdl.metadata with
    | some m =>
      if m.isEmpty then [] else
        readmeStatsPre ++ fmtMetaInt m keyLinesOfCode ++
        readmeStatsSignals ++ fmtMetaInt m keySignalsCount ++
        readmeStatsProcesses ++ fmtMetaInt m keyProcessesCount ++
        readmeStatsLibs ++ fmtMetaLibs m ++
        readmeStatsTb ++ fmtMetaTb m ++ readmeBlockEnd
    | none => []
  let warns :=
    match cr.warnings with
    | some ws => if ws.isEmpty then [] else
        readmeWarningsPre ++ joinWithChar '\n' ws ++ readmeBlockEnd
    | none => []
  let errs :=
    if cr.success then [] else
      readmeErrorPre ++ pyOptStr cr.error_message ++ readmeBlockEnd
  base ++ stats ++ warns ++ errs ++ readmeUsage

/-- The manifest dictionary built in `export_project` (lines 229-235). -/
def export_manifest (hdl : HDLCode) (cr : CompilationResult) : List (List Char × Jv) :=
  [(keyProjectName, Jv.jstr hdl.entity_name),
   (keyHdlLanguage, Jv.jstr hdl.language),
   (keyGeneratedBy, Jv.jstr strHdlAiProteus),
   (keyCompilationSuccess, Jv.jbool cr.success),
   (keyMetadata, match hdl.metadata with
     | some m => Jv.jobj m
     | none => Jv.jnull)]

/-- `HDLProcessor.export_project`.  Returns the `ProjectExport` value and
the archive's ordered member list; the archive-write I/O is modelled as
infallible, so the `except` branch of the source is unreachable here. -/
def export_project (fs : List Char → Option (List Char)) (cfg : HPConfig)
    (hdl : HDLCode) (cr : CompilationResult) (export_dir session_id : List Char) :
    ProjectExport × List (List Char × ZipData) :=
  let project_file := joinPath export_dir (hdl.entity_name ++ '.' :: strPdsprj)
  let build_dir := joinPath cfg.work_directory session_id
  let src_arcname := hdl.entity_name ++ '.' :: hdl.file_extension
  let hdl_file := joinPath build_dir src_arcname
  let source_entries : List (List Char × ZipData) :=
    match fs hdl_file with
    | some content => [(src_arcname, ZipData.fromFile hdl_file content)]
    | none => []
  let artifact_entries : List (List Char × ZipData) :=
    if cr.success then
      cr.build_files.filterMap
        (fun bf => (fs bf).map (fun content => (basename bf, ZipData.fromFile bf content)))
    else []
  let entries := source_entries ++ artifact_entries ++
    [(nameProjectInfo, ZipData.manifestJson (export_manifest hdl cr)),
     (nameReadme, ZipData.text (generate_project_readme hdl cr))]
  ({ success := true, file_path := project_file }, entries)

/-! # Supporting lemmas -/

/-- `r` is empty or its head fails `p` (the stopping condition of a maximal
munch). -/
def headNot (p : Char → Bool) (r : List Char) : Prop :=
  ∀ c, r.head? = some c → p c = false

theorem headNot_nil (p : Char → Bool) : headNot p [] := by
  intro c h; cases h

theorem headNot_cons {p : Char → Bool} {c : Char} {r : List Char} (h : p c = false) :
    headNot p (c :: r) := by
  intro d hd; cases hd; exact h

theorem dropWhile_head_false {p : Char → Bool} {l : List Char} {c : Char} {r : List Char}
    (h : l.dropWhile p = c :: r) : p c = false := by
  induction l with
  | nil => cases h
  | cons a t ih =>
    by_cases ha : p a
    · rw [List.dropWhile_cons_of_pos ha] at h; exact ih h
    · rw [List.dropWhile_cons_of_neg ha] at h
      cases h; exact Bool.eq_false_iff.mpr ha

theorem headNot_dropWhile (p : Char → Bool) (l : List Char) : headNot p (l.dropWhile p) := by
  intro c hc
  cases h : l.dropWhile p with
  | nil => rw [h] at hc; cases hc
  | cons a r =>
    rw [h] at hc
    cases hc
    exact dropWhile_head_false h

theorem dropWhile_all_append {p : Char → Bool} {a : List Char} (r : List Char)
    (h : ∀ c ∈ a, p c = true) : (a ++ r).dropWhile p = r.dropWhile p := by
  induction a with
  | nil => rfl
  | cons c t ih =>
    have hc : p c = true := h c (List.mem_cons_self c t)
    simp only [List.cons_append, List.dropWhile_cons_of_pos hc]
    exact ih (fun d hd => h d (List.mem_cons_of_mem c hd))

theorem dropWhile_headNot {p : Char → Bool} {r : List Char} (h : headNot p r) :
    r.dropWhile p = r := by
  cases r with
  | nil => rfl
  | cons c t => exact List.dropWhile_cons_of_neg (by simp [h c rfl])

theorem takeWhile_all_append {p : Char → Bool} {a : List Char} (r : List Char)
    (h : ∀ c ∈ a, p c = true) : (a ++ r).takeWhile p = a ++ r.takeWhile p := by
  induction a with
  | nil => rfl
  | cons c t ih =>
    have hc : p c = true := h c (List.mem_cons_self c t)
    simp only [List.cons_append, List.takeWhile_cons_of_pos hc]
    rw [ih (fun d hd => h d (List.mem_cons_of_mem c hd))]

theorem takeWhile_headNot {p : Char → Bool} {r : List Char} (h : headNot p r) :
    r.takeWhile p = [] := by
  cases r with
  | nil => rfl
  | cons c t => exact List.takeWhile_cons_of_neg (by simp [h c rfl])

/-! ## `occursB` (Python's `in`) -/

theorem occursB_eq_true_iff (pat s : List Char) :
    occursB pat s = true ↔ ∃ a b, s = a ++ pat ++ b := by
  induction s with
  | nil =>
    simp only [occursB]
    constructor
    · intro h
      rcases List.isPrefixOf_iff_prefix.mp h with ⟨b, hb⟩
      exact ⟨[], b, by simpa using hb.symm⟩
    · rintro ⟨a, b, hab⟩
      obtain ⟨ha, h2⟩ := List.append_eq_nil.mp hab.symm
      obtain ⟨hp, hb⟩ := List.append_eq_nil.mp ha
      subst hb
      rfl
  | cons c r ih =>
    simp only [occursB, Bool.or_eq_true]
    constructor
    · rintro (h | h)
      · rcases List.isPrefixOf_iff_prefix.mp h with ⟨b, hb⟩
        exact ⟨[], b, by simpa using hb.symm⟩
      · rcases ih.mp h with ⟨a, b, hab⟩
        exact ⟨c :: a, b, by simp [hab]⟩
    · rintro ⟨a, b, hab⟩
      cases a with
      | nil =>
        left
        exact List.isPrefixOf_iff_prefix.mpr ⟨b, by simpa using hab.symm⟩
      | cons a0 t =>
        right
        refine ih.mpr ⟨t, b, ?_⟩
        simpa using congrArg List.tail hab

theorem occursB_of_decomp (pat a b : List Char) : occursB pat (a ++ pat ++ b) = true :=
  (occursB_eq_true_iff pat _).mpr ⟨a, b, rfl⟩

/-! ## Characterizations of the one-position matchers -/

theorem matchLitCI_append {L a : List Char} (s : List Char) (h : lcs a = L) :
    matchLitCI L (a ++ s) = some s := by
  induction a generalizing L with
  | nil => cases h; rfl
  | cons c t ih =>
    cases h
    simp only [lcs, List.map_cons, List.cons_append, matchLitCI, beq_self_eq_true, if_true]
    exact ih rfl

theorem matchLitCI_eq_some {L s r : List Char} :
    matchLitCI L s = some r ↔ ∃ a, s = a ++ r ∧ lcs a = L := by
  constructor
  · intro h
    induction L generalizing s with
    | nil =>
      cases s with
      | nil => cases h; exact ⟨[], rfl, rfl⟩
      | cons c t => cases h; exact ⟨[], rfl, rfl⟩
    | cons p ps ih =>
      cases s with
      | nil => cases h
      | cons c t =>
        simp only [matchLitCI] at h
        by_cases hc : lc c == p
        · rw [if_pos hc] at h
          rcases ih h with ⟨a, hat, ha⟩
          exact ⟨c :: a, by simp [hat], by simp [lcs] at ha ⊢; exact ⟨by simpa using hc, ha⟩⟩
        · rw [if_neg hc] at h; cases h
  · rintro ⟨a, rfl, ha⟩
    exact matchLitCI_append r ha

theorem matchSpaces1_eq_some {s r : List Char} :
    matchSpaces1 s = some r ↔
      ∃ a, a ≠ [] ∧ (∀ c ∈ a, isSpaceChar c = true) ∧ s = a ++ r ∧ headNot isSpaceChar r := by
  constructor
  · intro h
    cases s with
    | nil => cases h
    | cons c t =>
      simp only [matchSpaces1] at h
      by_cases hc : isSpaceChar c
      · rw [if_pos hc] at h
        cases h
        refine ⟨c :: t.takeWhile isSpaceChar, by simp, ?_, ?_, headNot_dropWhile _ _⟩
        · intro d hd
          rcases List.mem_cons.mp hd with rfl | hd
          · exact hc
          · exact List.mem_takeWhile_imp hd
        · simp [List.takeWhile_append_dropWhile]
      · rw [if_neg hc] at h; cases h
  · rintro ⟨a, hne, hall, rfl, hr⟩
    cases a with
    | nil => exact absurd rfl hne
    | cons c t =>
      have hc : isSpaceChar c = true := hall c (List.mem_cons_self c t)
      simp only [List.cons_append, matchSpaces1, hc, if_true]
      rw [dropWhile_all_append r (fun d hd => hall d (List.mem_cons_of_mem c hd)),
        dropWhile_headNot hr]

theorem matchWord1_eq_some {s : List Char} {w r : List Char} :
    matchWord1 s = some (w, r) ↔
      w ≠ [] ∧ (∀ c ∈ w, isWordChar c = true) ∧ s = w ++ r ∧ headNot isWordChar r := by
  constructor
  · intro h
    cases s with
    | nil => cases h
    | cons c t =>
      simp only [matchWord1] at h
      by_cases hc : isWordChar c
      · rw [if_pos hc] at h
        cases h
        refine ⟨by simp, ?_, ?_, headNot_dropWhile _ _⟩
        · intro d hd
          rcases List.mem_cons.mp hd with rfl | hd
          · exact hc
          · exact List.mem_takeWhile_imp hd
        · simp [List.takeWhile_append_dropWhile]
      · rw [if_neg hc] at h; cases h
  · rintro ⟨hne, hall, rfl, hr⟩
    cases w with
    | nil => exact absurd rfl hne
    | cons c t =>
      have hc : isWordChar c = true := hall c (List.mem_cons_self c t)
      simp only [List.cons_append, matchWord1, hc, if_true]
      rw [takeWhile_all_append r (fun d hd => hall d (List.mem_cons_of_mem c hd)),
        takeWhile_headNot hr,
        dropWhile_all_append r (fun d hd => hall d (List.mem_cons_of_mem c hd)),
        dropWhile_headNot hr]
      simp

theorem matchWords1_eq (s : List Char) : matchWords1 s = (matchWord1 s).map (fun p => p.2) := by
  cases s with
  | nil => rfl
  | cons c t =>
    simp only [matchWords1, matchWord1]
    by_cases hc : isWordChar c <;> simp [hc]

/-! ## `reSearch` lemmas -/

theorem reSearch_congr_map {α β : Type} (att2 : List Char → Option α) (f : α → β)
    (att1 : List Char → Option β) (hatt : ∀ t, att1 t = (att2 t).map f) :
    ∀ (b : Bool) (s : List Char), reSearch att1 b s = (reSearch att2 b s).map f := by
  intro b s
  induction s generalizing b with
  | nil => rfl
  | cons c r ih =>
    simp only [reSearch]
    cases b with
    | true => simpa using ih (isWordChar c)
    | false =>
      simp only [Bool.false_eq_true, if_false, hatt]
      cases att2 (c :: r) with
      | some a => rfl
      | none => simpa using ih (isWordChar c)

/-! ## The validator's scanners agree with the extractor's

The validator regexes (`entity\s+\w+\s+is`, `module\s+\w+`) are the
extractor regexes with the capture group removed, which does not change
matching. -/

theorem matchEntityV_eq (s : List Char) :
    matchEntityV s = (matchEntityDecl s).map (fun p => p.2) := by
  unfold matchEntityV matchEntityDecl
  simp only [Option.bind_eq_bind, matchWords1_eq]
  cases matchLitCI kwEntity s with
  | none => rfl
  | some s1 =>
    simp only [Option.some_bind]
    cases matchSpaces1 s1 with
    | none => rfl
    | some s2 =>
      simp only [Option.some_bind]
      cases matchWord1 s2 with
      | none => rfl
      | some p =>
        obtain ⟨w, s4⟩ := p
        simp only [Option.map_some', Option.some_bind]
        cases matchSpaces1 s4 with
        | none => rfl
        | some s3 =>
          simp only [Option.some_bind]
          cases matchLitCI kwIs s3 <;> rfl

theorem matchModuleV_eq (s : List Char) :
    matchModuleV s = (matchModuleDecl s).map (fun p => p.2) := by
  unfold matchModuleV matchModuleDecl
  simp only [Option.bind_eq_bind, matchWords1_eq]
  cases matchLitCI kwModule s with
  | none => rfl
  | some s1 =>
    simp only [Option.some_bind]
    cases matchSpaces1 s1 with
    | none => rfl
    | some s2 =>
      simp only [Option.some_bind]

theorem searchEntityV_isSome (code : List Char) :
    (reSearch matchEntityV false code).isSome =
      (reSearch matchEntityDecl false code).isSome := by
  rw [reSearch_congr_map matchEntityDecl (fun p => p.2) matchEntityV matchEntityV_eq]
  cases reSearch matchEntityDecl false code <;> rfl

theorem searchModuleV_isSome (code : List Char) :
    (reSearch matchModuleV false code).isSome =
      (reSearch matchModuleDecl false code).isSome := by
  rw [reSearch_congr_map matchModuleDecl (fun p => p.2) matchModuleV matchModuleV_eq]
  cases reSearch matchModuleDecl false code <;> rfl

instance : DecidableEq (Except (List Char) Unit) := fun a b =>
  match a, b with
  | Except.error e1, Except.error e2 =>
    if h : e1 = e2 then isTrue (by rw [h]) else isFalse (fun hc => h (by injection hc))
  | Except.ok _, Except.ok _ => isTrue rfl
  | Except.error _, Except.ok _ => isFalse (fun hc => Except.noConfusion hc)
  | Except.ok _, Except.error _ => isFalse (fun hc => Except.noConfusion hc)

/-! # Claims -/

/-! ## C10 — validated code always yields a top-level name -/

/-- C10: for `language ∈ {vhdl, verilog}`, if basic syntax validation
passes then `extract_entity_name` returns a name: the validation regex for
the entity/module declaration matches exactly when the extraction regex
does (it only lacks the capture group), so the `None` branch is unreachable
on validated code. -/
theorem C10_validated_extraction (code language : List Char)
    (hlang : language = strVhdl ∨ language = strVerilog)
    (hok : validate_basic_syntax' code language = .ok ()) :
    (extract_entity_name code language).isSome = true := by
  rcases hlang with rfl | rfl
  · unfold validate_basic_syntax' at hok
    simp only [beq_self_eq_true, if_true] at hok
    unfold extract_entity_name
    simp only [beq_self_eq_true, if_true, Option.isSome_map]
    by_cases h1 : (reSearch matchEntityV false code).isSome = false
    · rw [if_pos h1] at hok; cases hok
    · have h2 : (reSearch matchEntityDecl false code).isSome = true := by
        rw [← searchEntityV_isSome]
        exact Bool.not_eq_false _ |>.mp h1
      cases h3 : reSearch matchEntityDecl false code with
      | none => rw [h3] at h2; cases h2
      | some p => rfl
  · unfold validate_basic_syntax' at hok
    have hne : (strVerilog == strVhdl) = false := by decide
    simp only [hne, Bool.false_eq_true, if_false, beq_self_eq_true, if_true] at hok
    unfold extract_entity_name
    have hne2 : (strVerilog == strVhdl) = false := by decide
    simp only [hne2, Bool.false_eq_true, if_false, beq_self_eq_true, if_true,
      Option.isSome_map]
    by_cases h1 : (reSearch matchModuleV false code).isSome = false
    · rw [if_pos h1] at hok; cases hok
    · have h2 : (reSearch matchModuleDecl false code).isSome = true := by
        rw [← searchModuleV_isSome]
        exact Bool.not_eq_false _ |>.mp h1
      cases h3 : reSearch matchModuleDecl false code with
      | none => rw [h3] at h2; cases h2
      | some p => rfl

/-- C10 witness at a concrete validated VHDL design. -/
theorem C10_witness :
    (extract_entity_name ("entity a is architecture b of a is".data) strVhdl).isSome = true :=
  C10_validated_extraction ("entity a is architecture b of a is".data) strVhdl
    (Or.inl rfl) (by decide)

/-! ## C9 — testbench detection markers -/

/-- C9 counterexample: the claim includes `test_` among the Verilog
markers, but the source's Verilog marker list is
`['testbench','tb_','_tb','initial','$monitor']` — `test_` is only a VHDL
marker.  On `"test_a"` the claim's predicate is true while the code
returns false. -/
theorem C9_counterexample :
    ¬ (detect_testbench ("test_a".data) strVerilog =
        (occursB markerTestbench (lcs ("test_a".data)) ||
         occursB markerTbUnd (lcs ("test_a".data)) ||
         occursB markerUndTb (lcs ("test_a".data)) ||
         occursB markerTestUnd (lcs ("test_a".data)) ||
         occursB markerInitial (lcs ("test_a".data)) ||
         occursB markerMonitor (lcs ("test_a".data)))) := by
  decide

/-- C9 as amended: `has_testbench` is true exactly when the lower-cased
code contains one of `testbench`, `tb_`, `_tb`, `test_` for VHDL, and one
of `testbench`, `tb_`, `_tb`, `initial`, `$monitor` for Verilog (`test_`
is not a Verilog marker). -/
theorem C9_detect_testbench (code : List Char) :
    (detect_testbench code strVhdl =
      (occursB markerTestbench (lcs code) || occursB markerTbUnd (lcs code) ||
       occursB markerUndTb (lcs code) || occursB markerTestUnd (lcs code))) ∧
    (detect_testbench code strVerilog =
      (occursB markerTestbench (lcs code) || occursB markerTbUnd (lcs code) ||
       occursB markerUndTb (lcs code) || occursB markerInitial (lcs code) ||
       occursB markerMonitor (lcs code))) := by
  constructor
  · simp [detect_testbench, vhdlTbMarkers, Bool.or_assoc]
  · have hne : (strVerilog == strVhdl) = false := by decide
    simp [detect_testbench, verilogTbMarkers, hne, Bool.or_assoc]

/-! ## C7 — the syntax gate's raise conditions -/

/-- C7 counterexample: on code `"x"`, which lacks both declarations, the
claimed biconditional "fails naming the architecture declaration iff the
architecture clause is absent" is false: the architecture clause is absent,
but validation raises the *entity* diagnostic. -/
theorem C7_counterexample :
    ¬ ((validate_basic_syntax' ("x".data) strVhdl = Except.error msgNeedArch) ↔
        (reSearch matchArchV false ("x".data)).isSome = false) := by
  intro h
  have h2 : validate_basic_syntax' ("x".data) strVhdl = Except.error msgNeedArch :=
    h.mpr (by decide)
  have h3 : validate_basic_syntax' ("x".data) strVhdl = Except.error msgNeedEntity := by decide
  rw [h3] at h2
  have : msgNeedEntity = msgNeedArch := by injection h2
  exact absurd this (by decide)

/-- C7 as amended: the architecture diagnostic is raised exactly when an
entity declaration is present and the architecture clause is absent (when
both are absent the entity diagnostic wins); the entity diagnostic exactly
when the entity declaration is absent; VHDL validation succeeds iff both
clauses are present.  For Verilog: the module diagnostic iff no module
declaration; the endmodule diagnostic iff a module declaration is present
but no `endmodule` token; success iff both are present (so Verilog
validation fails at all exactly when the code lacks a module declaration
or an `endmodule` token, as the claim stated). -/
theorem C7_validate_syntax' (code : List Char) :
    (validate_basic_syntax' code strVhdl = Except.error msgNeedEntity ↔
      (reSearch matchEntityV false code).isSome = false) ∧
    (validate_basic_syntax' code strVhdl = Except.error msgNeedArch ↔
      ((reSearch matchEntityV false code).isSome = true ∧
       (reSearch matchArchV false code).isSome = false)) ∧
    (validate_basic_syntax' code strVhdl = Except.ok () ↔
      ((reSearch matchEntityV false code).isSome = true ∧
       (reSearch matchArchV false code).isSome = true)) ∧
    (validate_basic_syntax' code strVerilog = Except.error msgNeedModule ↔
      (reSearch matchModuleV false code).isSome = false) ∧
    (validate_basic_syntax' code strVerilog = Except.error msgNeedEndmodule ↔
      ((reSearch matchModuleV false code).isSome = true ∧
       (reSearch matchEndmoduleV false code).isSome = false)) ∧
    (validate_basic_syntax' code strVerilog = Except.ok () ↔
      ((reSearch matchModuleV false code).isSome = true ∧
       (reSearch matchEndmoduleV false code).isSome = true)) := by
  have hne : (strVerilog == strVhdl) = false := by decide
  have hEA : msgNeedEntity ≠ msgNeedArch := by decide
  have hME : msgNeedModule ≠ msgNeedEndmodule := by decide
  unfold validate_basic_syntax'
  simp only [beq_self_eq_true, if_true, hne, Bool.false_eq_true, if_false]
  cases hE : (reSearch matchEntityV false code).isSome <;>
    cases hA : (reSearch matchArchV false code).isSome <;>
      cases hM : (reSearch matchModuleV false code).isSome <;>
        cases hEM : (reSearch matchEndmoduleV false code).isSome <;>
          simp_all [Except.error.injEq, hEA, hME, Ne.symm hEA, Ne.symm hME]

/-- C7 witness: a VHDL design with an entity but no architecture raises
the architecture diagnostic. -/
theorem C7_witness :
    validate_basic_syntax' ("entity a is".data) strVhdl = Except.error msgNeedArch :=
  (C7_validate_syntax' ("entity a is".data)).2.1.mpr (by constructor <;> decide)

/-! ## C6 — extraction is total -/

theorem matchFenceAt_tags {s tag g : List Char}
    (h : matchFenceAt s = some (tag, g)) :
    tag = strVhdl ∨ tag = strVerilog ∨ tag = strSystemverilog := by
  unfold matchFenceAt at h
  cases h1 : matchLitCI fence3 s with
  | none => rw [h1] at h; cases h
  | some s1 =>
    rw [h1] at h
    dsimp only at h
    cases h2 : tryFenceTag strVhdl s1 with
    | some g1 => rw [h2] at h; injection h with h; cases h; exact Or.inl rfl
    | none =>
      rw [h2] at h
      cases h3 : tryFenceTag strVerilog s1 with
      | some g2 => rw [h3] at h; injection h with h; cases h; exact Or.inr (Or.inl rfl)
      | none =>
        rw [h3] at h
        cases h4 : tryFenceTag strSystemverilog s1 with
        | some g3 => rw [h4] at h; injection h with h; cases h; exact Or.inr (Or.inr rfl)
        | none => rw [h4] at h; cases h

theorem searchFence_tags {s tag g : List Char} (h : searchFence s = some (tag, g)) :
    tag = strVhdl ∨ tag = strVerilog ∨ tag = strSystemverilog := by
  induction s with
  | nil => cases h
  | cons c r ih =>
    simp only [searchFence] at h
    cases h1 : matchFenceAt (c :: r) with
    | some x =>
      rw [h1] at h
      have hx : x = (tag, g) := by injection h
      subst hx
      exact matchFenceAt_tags h1
    | none => rw [h1] at h; exact ih h

/-- C6 counterexample: on the input `" x "` (no fenced block, no indicator
keyword) extraction defaults to VHDL but returns the input *stripped*, not
the full input as the claim states. -/
theorem C6_counterexample :
    searchFence (" x ".data) = none ∧
    vhdlIndicators.any (fun k => occursB k (lcs (" x ".data))) = false ∧
    verilogIndicators.any (fun k => occursB k (lcs (" x ".data))) = false ∧
    extract_code_and_language (" x ".data) ≠ (strVhdl, " x ".data) := by
  refine ⟨by decide, by decide, by decide, by decide⟩

/-- The language component of extraction is always `vhdl` or `verilog`
(shared by several claims). -/
theorem extract_language_total (content : List Char) :
    (extract_code_and_language content).1 = strVhdl ∨
    (extract_code_and_language content).1 = strVerilog := by
  unfold extract_code_and_language
  cases h : searchFence content with
  | some x =>
    obtain ⟨tag, g⟩ := x
    rcases searchFence_tags h with h1 | h1 | h1 <;> subst h1
    · left
      have hc : (strVhdl == strVerilog || strVhdl == strSystemverilog) = false := by decide
      simp [hc]
    · right
      have hc : (strVerilog == strVerilog || strVerilog == strSystemverilog) = true := by decide
      simp [hc]
    · right
      have hc : (strSystemverilog == strVerilog || strSystemverilog == strSystemverilog) = true :=
        by decide
      simp [hc]
  | none =>
    by_cases h1 : vhdlIndicators.any (fun k => occursB k (lcs content)) = true
    · simp [h1]
    · by_cases h2 : verilogIndicators.any (fun k => occursB k (lcs content)) = true
      · simp [h1, h2]
      · simp [h1, h2]

/-- C6 as amended: extraction is a total function with
`language ∈ {vhdl, verilog}`, and on input with no fenced block and no
indicator keyword it returns language `vhdl` with the full input stripped
of leading and trailing whitespace (not the input verbatim). -/
theorem C6_extraction_total (content : List Char) :
    ((extract_code_and_language content).1 = strVhdl ∨
     (extract_code_and_language content).1 = strVerilog) ∧
    (searchFence content = none →
      vhdlIndicators.any (fun k => occursB k (lcs content)) = false →
      verilogIndicators.any (fun k => occursB k (lcs content)) = false →
      extract_code_and_language content = (strVhdl, stripChars content)) := by
  refine ⟨extract_language_total content, ?_⟩
  intro h h1 h2
  unfold extract_code_and_language
  simp [h, h1, h2]

/-- C6 witness at the concrete keyword-free input. -/
theorem C6_witness :
    extract_code_and_language (" x ".data) = (strVhdl, stripChars (" x ".data)) :=
  (C6_extraction_total (" x ".data)).2 (by decide) (by decide) (by decide)

/-! ## C5 — fenced-block extraction -/

/-- The backtick character, named so it can be reasoned about. -/
def backtickChar : Char := "`".data.headD ' '

theorem fence3_eq : fence3 = backtickChar :: backtickChar :: backtickChar :: [] := rfl

theorem fenceClose_eq :
    fenceClose = '\n' :: backtickChar :: backtickChar :: backtickChar :: [] := rfl

theorem toNat_ofNat_valid {n : Nat} (h : n.isValidChar) : (Char.ofNat n).toNat = n := by
  unfold Char.ofNat
  rw [dif_pos h]
  rfl

/-- `Char.toLower` maps only `'`'` to `'`'` (upper-case letters land in
`a`-`z`, and everything else is fixed). -/
theorem lc_eq_backtick {c : Char} (h : lc c = backtickChar) : c = backtickChar := by
  unfold lc Char.toLower at h
  dsimp only at h
  by_cases hcond : c.toNat ≥ 65 ∧ c.toNat ≤ 90
  · rw [if_pos hcond] at h
    exfalso
    have hv : (c.toNat + 32).isValidChar := Or.inl (by omega)
    have h2 := congrArg Char.toNat h
    rw [toNat_ofNat_valid hv] at h2
    have h96 : backtickChar.toNat = 96 := by decide
    rw [h96] at h2
    omega
  · rwa [if_neg hcond] at h

theorem matchLitCI_fence3_none {c : Char} (h : c ≠ backtickChar) (t : List Char) :
    matchLitCI fence3 (c :: t) = none := by
  rw [fence3_eq]
  have hb : (lc c == backtickChar) = false := by
    rw [beq_eq_false_iff_ne]
    intro he
    exact h (lc_eq_backtick he)
  simp [matchLitCI, hb]

theorem matchFenceAt_none_of_head {c : Char} (h : c ≠ backtickChar) (t : List Char) :
    matchFenceAt (c :: t) = none := by
  unfold matchFenceAt
  rw [matchLitCI_fence3_none h]

/-- `re.search` skips a backtick-free prefix. -/
theorem searchFence_skip (pre rest : List Char) (hpre : backtickChar ∉ pre) :
    searchFence (pre ++ rest) = searchFence rest := by
  induction pre with
  | nil => rfl
  | cons c p ih =>
    have hc : c ≠ backtickChar := fun hx => hpre (hx ▸ List.mem_cons_self c p)
    simp only [List.cons_append, searchFence, matchFenceAt_none_of_head hc]
    exact ih (fun hx => hpre (List.mem_cons_of_mem c hx))

theorem fenceClose_isPrefixOf_iff (s : List Char) :
    fenceClose.isPrefixOf s = true ↔
      ∃ t, s = '\n' :: backtickChar :: backtickChar :: backtickChar :: t := by
  constructor
  · intro h
    match s with
    | [] => rw [fenceClose_eq] at h; cases h
    | [c1] => rw [fenceClose_eq] at h; simp [List.isPrefixOf] at h
    | [c1, c2] => rw [fenceClose_eq] at h; simp [List.isPrefixOf] at h
    | [c1, c2, c3] => rw [fenceClose_eq] at h; simp [List.isPrefixOf] at h
    | c1 :: c2 :: c3 :: c4 :: t =>
      rw [fenceClose_eq] at h
      simp only [List.isPrefixOf, Bool.and_eq_true, beq_iff_eq] at h
      obtain ⟨h1, h2, h3, h4, _⟩ := h
      exact ⟨t, by rw [← h1, ← h2, ← h3, ← h4]⟩
  · rintro ⟨t, rfl⟩
    rw [fenceClose_eq]
    simp [List.isPrefixOf]

/-- The closing fence cannot straddle the boundary between the group-2 text
and the closer, so the lazy group stops exactly at the first closer. -/
theorem lazyBody_append (a post : List Char) (ha : ¬ fenceClose <:+: a) :
    lazyBody (a ++ (fenceClose ++ post)) = some a := by
  induction a with
  | nil =>
    rw [List.nil_append]
    have h1 : fenceClose ++ post =
        '\n' :: (backtickChar :: backtickChar :: backtickChar :: post) := by
      rw [fenceClose_eq]
      rfl
    rw [h1]
    simp only [lazyBody]
    rw [if_pos]
    rw [← h1]
    exact List.isPrefixOf_iff_prefix.mpr (List.prefix_append _ _)
  | cons c a' ih =>
    have hno : fenceClose.isPrefixOf (c :: (a' ++ (fenceClose ++ post))) = false := by
      rw [Bool.eq_false_iff]
      intro hpf
      obtain ⟨t, ht⟩ := (fenceClose_isPrefixOf_iff _).mp hpf
      apply ha
      match a' with
      | [] =>
        simp only [List.cons_append, List.nil_append, fenceClose_eq, List.cons.injEq] at ht
        obtain ⟨_, h2, _⟩ := ht
        exact absurd h2 (by decide)
      | [d] =>
        simp only [List.cons_append, List.nil_append, fenceClose_eq, List.cons.injEq] at ht
        obtain ⟨_, _, h3, _⟩ := ht
        exact absurd h3 (by decide)
      | [d, e] =>
        simp only [List.cons_append, List.nil_append, fenceClose_eq, List.cons.injEq] at ht
        obtain ⟨_, _, _, h4, _⟩ := ht
        exact absurd h4 (by decide)
      | d :: e :: f :: a'' =>
        simp only [List.cons_append, List.cons.injEq] at ht
        obtain ⟨h1, h2, h3, h4, _⟩ := ht
        refine ⟨[], a'', ?_⟩
        rw [fenceClose_eq]
        simp [h1, h2, h3, h4]
    simp only [List.cons_append, lazyBody, List.append_eq]
    rw [hno]
    simp only [Bool.false_eq_true, if_false]
    rw [ih (fun hx => ha (List.infix_cons hx))]
    rfl

/-- The split point chosen while the greedy `\s*` gives characters back:
everything up to and including the last `\n` is consumed, the remainder
becomes the start of group 2. -/
def dropThroughLastNl : List Char → Option (List Char)
  | [] => none
  | c :: r =>
    match dropThroughLastNl r with
    | some v => some v
    | none => if c == '\n' then some r else none

theorem dropThroughLastNl_suffix {U v : List Char} (h : dropThroughLastNl U = some v) :
    v <:+ U := by
  induction U with
  | nil => cases h
  | cons c r ih =>
    simp only [dropThroughLastNl] at h
    cases hd : dropThroughLastNl r with
    | some v2 =>
      rw [hd] at h
      injection h with h
      subst h
      exact (ih hd).trans (List.suffix_cons c r)
    | none =>
      rw [hd] at h
      by_cases hc : c == '\n'
      · rw [if_pos hc] at h
        injection h with h
        subst h
        exact List.suffix_cons _ _
      · rw [if_neg hc] at h
        cases h

theorem wsNlBody_white_block (R G : List Char) (hR : wsNlBody R = none) :
    ∀ U : List Char, (∀ c ∈ U, isSpaceChar c = true) →
    (∀ V, V <:+ U → V.length < U.length → lazyBody (V ++ R) = some (V ++ G)) →
    wsNlBody (U ++ R) = (dropThroughLastNl U).map (fun v => v ++ G) := by
  intro U
  induction U with
  | nil =>
    intro _ _
    simpa using hR
  | cons c U' ih =>
    intro hU hlazy
    have hc : isSpaceChar c = true := hU c (List.mem_cons_self c U')
    simp only [List.cons_append, wsNlBody, hc, if_true, List.append_eq]
    rw [ih (fun d hd => hU d (List.mem_cons_of_mem c hd))
      (fun V hV hVl => hlazy V (hV.trans (List.suffix_cons c U'))
        (Nat.lt_trans hVl (by simp)))]
    cases hd : dropThroughLastNl U' with
    | some v => simp [dropThroughLastNl, hd]
    | none =>
      simp only [Option.map_none']
      by_cases hcn : c == '\n'
      · rw [if_pos hcn]
        rw [hlazy U' (List.suffix_cons c U') (by simp)]
        simp [dropThroughLastNl, hd, hcn]
      · rw [if_neg hcn]
        simp [dropThroughLastNl, hd, hcn]

theorem stripChars_white_append {w : List Char} (x : List Char)
    (hw : ∀ c ∈ w, isSpaceChar c = true) : stripChars (w ++ x) = stripChars x := by
  unfold stripChars
  rw [dropWhile_all_append x hw]

/-- The `\s*\n(.*?)` part on a block whose inner text has some non-blank
character: group 2 is the inner text minus part of its leading whitespace,
so it strips to the same text. -/
theorem wsNlBody_main (inner post : List Char) (hinf : ¬ fenceClose <:+: inner)
    (hne : stripChars inner ≠ []) :
    ∃ g, wsNlBody ('\n' :: (inner ++ (fenceClose ++ post))) = some g ∧
      stripChars g = stripChars inner := by
  have hsplit : inner = inner.takeWhile isSpaceChar ++ inner.dropWhile isSpaceChar :=
    (List.takeWhile_append_dropWhile ..).symm
  have hrest : inner.dropWhile isSpaceChar ≠ [] := by
    intro h0
    apply hne
    unfold stripChars
    rw [h0]
    rfl
  have hRnone : wsNlBody (inner.dropWhile isSpaceChar ++ (fenceClose ++ post)) = none := by
    cases hr : inner.dropWhile isSpaceChar with
    | nil => exact absurd hr hrest
    | cons c0 t =>
      have : isSpaceChar c0 = false := dropWhile_head_false hr
      simp [wsNlBody, this]
  have hW : ∀ c ∈ inner.takeWhile isSpaceChar, isSpaceChar c = true :=
    fun c hc => List.mem_takeWhile_imp hc
  have hlazy : ∀ V, V <:+ ('\n' :: inner.takeWhile isSpaceChar) →
      V.length < ('\n' :: inner.takeWhile isSpaceChar).length →
      lazyBody (V ++ (inner.dropWhile isSpaceChar ++ (fenceClose ++ post))) =
        some (V ++ inner.dropWhile isSpaceChar) := by
    intro V hV hVl
    have hVW : V <:+ inner.takeWhile isSpaceChar := by
      rcases List.suffix_cons_iff.mp hV with h | h
      · exfalso
        rw [h] at hVl
        exact Nat.lt_irrefl _ hVl
      · exact h
    have hVin : V ++ inner.dropWhile isSpaceChar <:+ inner := by
      rcases hVW with ⟨p, hp⟩
      refine ⟨p, ?_⟩
      conv_rhs => rw [hsplit]
      rw [← hp]
      simp
    have hnoc : ¬ fenceClose <:+: (V ++ inner.dropWhile isSpaceChar) :=
      fun hx => hinf (hx.trans hVin.isInfix)
    rw [← List.append_assoc]
    exact lazyBody_append _ post hnoc
  have hU : ∀ c ∈ ('\n' :: inner.takeWhile isSpaceChar), isSpaceChar c = true := by
    intro c hc
    rcases List.mem_cons.mp hc with rfl | hc
    · decide
    · exact hW c hc
  have hmain := wsNlBody_white_block (inner.dropWhile isSpaceChar ++ (fenceClose ++ post))
    (inner.dropWhile isSpaceChar) hRnone ('\n' :: inner.takeWhile isSpaceChar) hU hlazy
  have harr : List.takeWhile isSpaceChar inner ++
      (List.dropWhile isSpaceChar inner ++ (fenceClose ++ post)) =
      inner ++ (fenceClose ++ post) := by
    rw [← List.append_assoc, List.takeWhile_append_dropWhile]
  rw [List.cons_append, harr] at hmain
  cases hd : dropThroughLastNl ('\n' :: inner.takeWhile isSpaceChar) with
  | none =>
    exfalso
    simp only [dropThroughLastNl] at hd
    cases hd2 : dropThroughLastNl (inner.takeWhile isSpaceChar) with
    | some v => rw [hd2] at hd; cases hd
    | none => rw [hd2] at hd; simp at hd
  | some v =>
    rw [hd] at hmain
    refine ⟨v ++ inner.dropWhile isSpaceChar, by simpa using hmain, ?_⟩
    have hvW : v <:+ ('\n' :: inner.takeWhile isSpaceChar) := dropThroughLastNl_suffix hd
    have hvwhite : ∀ c ∈ v, isSpaceChar c = true := by
      intro c hc
      rcases hvW with ⟨p, hp⟩
      exact hU c (by rw [← hp]; exact List.mem_append_right p hc)
    rw [stripChars_white_append _ hvwhite]
    conv_rhs => rw [hsplit]
    rw [stripChars_white_append _ hW]

theorem lcs_length (a : List Char) : (lcs a).length = a.length := by simp [lcs]

theorem not_infix_of_occursB {pat s : List Char} (h : occursB pat s = false) :
    ¬ pat <:+: s := by
  rintro ⟨a, b, hab⟩
  have h2 := (occursB_eq_true_iff pat s).mpr ⟨a, b, hab.symm⟩
  rw [h2] at h
  cases h

theorem matchLitCI_none_of_take {L s : List Char} (hlen : L.length ≤ s.length)
    (hne : lcs (s.take L.length) ≠ L) : matchLitCI L s = none := by
  cases h : matchLitCI L s with
  | none => rfl
  | some r =>
    exfalso
    obtain ⟨a, rfl, ha⟩ := matchLitCI_eq_some.mp h
    apply hne
    have hal : a.length = L.length := by
      rw [← ha, lcs_length]
    rw [← hal, List.take_left]
    exact ha

theorem tryFenceTag_block {tag : List Char} (T : List Char) (inner post : List Char)
    (htag : lcs tag = T)
    (hinf : ¬ fenceClose <:+: inner) (hne : stripChars inner ≠ []) :
    ∃ g, tryFenceTag T (tag ++ '\n' :: (inner ++ (fenceClose ++ post))) = some g ∧
      stripChars g = stripChars inner := by
  obtain ⟨g, hg, hs⟩ := wsNlBody_main inner post hinf hne
  refine ⟨g, ?_, hs⟩
  unfold tryFenceTag
  rw [matchLitCI_append _ htag]
  simpa using hg

theorem tryFenceTag_fail {tag : List Char} (T T2 : List Char) (X : List Char)
    (htag : lcs tag = T2) (hlen : T.length ≤ T2.length)
    (hne : T2.take T.length ≠ T) :
    tryFenceTag T (tag ++ X) = none := by
  unfold tryFenceTag
  rw [matchLitCI_none_of_take]
  · rfl
  · have h2 : tag.length = T2.length := by rw [← htag, lcs_length]
    rw [List.length_append]
    omega
  · have htl : tag.length = T2.length := by rw [← htag, lcs_length]
    rw [List.take_append_of_le_length (by omega)]
    have hx : lcs (List.take T.length tag) = List.take T.length T2 := by
      unfold lcs
      rw [List.map_take]
      rw [show List.map lc tag = lcs tag from rfl, htag]
    rw [hx]
    exact hne

theorem matchFenceAt_block {tag : List Char} (inner post : List Char)
    (htag : lcs tag = strVhdl ∨ lcs tag = strVerilog ∨ lcs tag = strSystemverilog)
    (hinf : ¬ fenceClose <:+: inner) (hne : stripChars inner ≠ []) :
    ∃ g, matchFenceAt (fence3 ++ (tag ++ '\n' :: (inner ++ (fenceClose ++ post)))) =
        some ((if lcs tag = strVhdl then strVhdl
               else if lcs tag = strVerilog then strVerilog else strSystemverilog), g) ∧
      stripChars g = stripChars inner := by
  unfold matchFenceAt
  rw [matchLitCI_append _ (by decide : lcs fence3 = fence3)]
  dsimp only
  rcases htag with h | h | h
  · obtain ⟨g, hg, hs⟩ := tryFenceTag_block strVhdl inner post h hinf hne
    rw [hg, if_pos h]
    exact ⟨g, rfl, hs⟩
  · obtain ⟨g, hg, hs⟩ := tryFenceTag_block strVerilog inner post h hinf hne
    rw [tryFenceTag_fail strVhdl strVerilog _ h (by decide) (by decide), hg]
    rw [if_neg (by rw [h]; decide), if_pos h]
    exact ⟨g, rfl, hs⟩
  · obtain ⟨g, hg, hs⟩ := tryFenceTag_block strSystemverilog inner post h hinf hne
    rw [tryFenceTag_fail strVhdl strSystemverilog _ h (by decide) (by decide),
      tryFenceTag_fail strVerilog strSystemverilog _ h (by decide) (by decide), hg]
    rw [if_neg (by rw [h]; decide), if_neg (by rw [h]; decide)]
    exact ⟨g, rfl, hs⟩

theorem searchFence_head {s : List Char} {x : List Char × List Char}
    (h : matchFenceAt s = some x) (hcons : s ≠ []) : searchFence s = some x := by
  cases s with
  | nil => exact absurd rfl hcons
  | cons c r => simp [searchFence, h]

/-- C5 counterexample: on `"```vhdl\n x\n```"` the first block's inner
text is `" x"`, but extraction returns `"x"` — `.strip()` is applied, so
the code is not the inner text *verbatim*. -/
theorem C5_counterexample :
    ("```vhdl\n x\n```".data =
      [] ++ (fence3 ++ ("vhdl".data ++ '\n' :: (" x".data ++ (fenceClose ++ []))))) ∧
    extract_code_and_language ("```vhdl\n x\n```".data) = (strVhdl, "x".data) ∧
    "x".data ≠ " x".data := by
  refine ⟨by decide, by rfl, by decide⟩

/-- C5 as amended: for every text containing a fenced block tagged
`vhdl`/`verilog`/`systemverilog` (case-insensitive) — here: the first
backtick opens that block, the inner text has no embedded closing fence
and at least one non-whitespace character — extraction returns the
normalized tag (`systemverilog` folded into `verilog`) together with that
first block's inner text *stripped of leading and trailing whitespace*
(not verbatim: the code applies `.strip()` to the matched group). -/
theorem C5_fenced_extraction (pre tag inner post : List Char)
    (hpre : backtickChar ∉ pre)
    (htag : lcs tag = strVhdl ∨ lcs tag = strVerilog ∨ lcs tag = strSystemverilog)
    (hinf : ¬ fenceClose <:+: inner)
    (hne : stripChars inner ≠ []) :
    extract_code_and_language
        (pre ++ (fence3 ++ (tag ++ '\n' :: (inner ++ (fenceClose ++ post))))) =
      ((if lcs tag = strVhdl then strVhdl else strVerilog), stripChars inner) := by
  obtain ⟨g, hg, hs⟩ := matchFenceAt_block inner post htag hinf hne
  unfold extract_code_and_language
  rcases htag with h | h | h
  · rw [if_pos h] at hg
    rw [searchFence_skip _ _ hpre, searchFence_head hg (by rw [fence3_eq]; simp)]
    dsimp only
    have hc : (strVhdl == strVerilog || strVhdl == strSystemverilog) = false := by decide
    rw [hc]
    simp only [Bool.false_eq_true, if_false]
    rw [if_pos h, hs]
  · have hv : lcs tag ≠ strVhdl := by rw [h]; decide
    rw [if_neg hv, if_pos h] at hg
    rw [searchFence_skip _ _ hpre, searchFence_head hg (by rw [fence3_eq]; simp)]
    dsimp only
    have hc : (strVerilog == strVerilog || strVerilog == strSystemverilog) = true := by decide
    rw [hc]
    simp only [if_true]
    rw [if_neg hv, hs]
  · have hv : lcs tag ≠ strVhdl := by rw [h]; decide
    have hv2 : lcs tag ≠ strVerilog := by rw [h]; decide
    rw [if_neg hv, if_neg hv2] at hg
    rw [searchFence_skip _ _ hpre, searchFence_head hg (by rw [fence3_eq]; simp)]
    dsimp only
    have hc : (strSystemverilog == strVerilog || strSystemverilog == strSystemverilog) = true :=
      by decide
    rw [hc]
    simp only [if_true]
    rw [if_neg hv, hs]

/-- C5 witness at the concrete input of the counterexample. -/
theorem C5_witness :
    extract_code_and_language
        ([] ++ (fence3 ++ ("vhdl".data ++ '\n' :: (" x".data ++ (fenceClose ++ []))))) =
      ((if lcs ("vhdl".data) = strVhdl then strVhdl else strVerilog),
        stripChars (" x".data)) :=
  C5_fenced_extraction [] ("vhdl".data) (" x".data) [] (by decide)
    (Or.inl (by decide)) (not_infix_of_occursB (by decide)) (by decide)

/-! ## Infrastructure for the rewrite claims (C1, C2)

`subAllW att b s` is `re.sub` at its natural fuel; the step equations below
hide the fuel argument from all further proofs. -/

theorem not_space_of_word {c : Char} (h : isWordChar c = true) : isSpaceChar c = false := by
  cases hs : isSpaceChar c with
  | false => rfl
  | true =>
    exfalso
    unfold isSpaceChar at hs
    simp only [Bool.or_eq_true, beq_iff_eq] at hs
    rcases hs with ((((hc | hc) | hc) | hc) | hc) | hc <;> subst hc <;>
      exact absurd h (by decide)

theorem lc_of_space {c : Char} (h : isSpaceChar c = true) : lc c = c := by
  unfold isSpaceChar at h
  simp only [Bool.or_eq_true, beq_iff_eq] at h
  rcases h with ((((hc | hc) | hc) | hc) | hc) | hc <;> subst hc <;> decide

/-- A character whose lower-casing is a word character is a word
character. -/
theorem word_of_lc_word {c : Char} (h : isWordChar (lc c) = true) : isWordChar c = true := by
  unfold lc Char.toLower at h
  dsimp only at h
  by_cases hcond : c.toNat ≥ 65 ∧ c.toNat ≤ 90
  · unfold isWordChar Char.isAlphanum Char.isAlpha Char.isUpper
    have h1 : (65 : UInt32) ≤ c.val := by
      rw [UInt32.le_def, BitVec.le_def]
      exact hcond.1
    have h2 : c.val ≤ (90 : UInt32) := by
      rw [UInt32.le_def, BitVec.le_def]
      exact hcond.2
    simp [h1, h2]
  · rwa [if_neg hcond] at h

/-- A character whose lower-casing is whitespace is whitespace (upper-case
letters lower to letters, everything else is fixed). -/
theorem space_of_lc_space {c : Char} (h : isSpaceChar (lc c) = true) : isSpaceChar c = true := by
  unfold lc Char.toLower at h
  dsimp only at h
  by_cases hcond : c.toNat ≥ 65 ∧ c.toNat ≤ 90
  · rw [if_pos hcond] at h
    exfalso
    have hv : (c.toNat + 32).isValidChar := Or.inl (by omega)
    have ht := toNat_ofNat_valid hv
    unfold isSpaceChar at h
    simp only [Bool.or_eq_true, beq_iff_eq] at h
    rcases h with ((((h2 | h2) | h2) | h2) | h2) | h2 <;>
      (have h3 := congrArg Char.toNat h2
       rw [ht] at h3
       simp only [show (' ' : Char).toNat = 32 from rfl,
         show ('\t' : Char).toNat = 9 from rfl,
         show ('\n' : Char).toNat = 10 from rfl,
         show ('\x0d' : Char).toNat = 13 from rfl,
         show ('\x0b' : Char).toNat = 11 from rfl,
         show ('\x0c' : Char).toNat = 12 from rfl] at h3
       omega)
  · rwa [if_neg hcond] at h

/-- Number of occurrences of `pat` (at all positions) in a string. -/
def countOccur (pat : List Char) : List Char → Nat
  | [] => 0
  | c :: r => (if pat.isPrefixOf (c :: r) then 1 else 0) + countOccur pat r

/-- If some character of `pat` appears nowhere in `chunk`, `pat` does not
occur in `chunk`. -/
theorem countOccur_zero_of_missing {pat chunk : List Char} {pc : Char}
    (hpc : pc ∈ pat) (hmiss : ∀ c ∈ chunk, c ≠ pc) : countOccur pat chunk = 0 := by
  induction chunk with
  | nil => rfl
  | cons c r ih =>
    simp only [countOccur]
    rw [ih (fun d hd => hmiss d (List.mem_cons_of_mem c hd))]
    have hpre : pat.isPrefixOf (c :: r) = false := by
      cases hp : pat.isPrefixOf (c :: r) with
      | false => rfl
      | true =>
        exfalso
        rcases List.isPrefixOf_iff_prefix.mp hp with ⟨t, ht⟩
        have hsub : pat ++ t = c :: r := ht
        have : pc ∈ c :: r := by
          rw [← hsub]
          exact List.mem_append_left t hpc
        rcases List.mem_cons.mp this with rfl | hmem
        · exact hmiss pc (List.mem_cons_self _ _) rfl
        · -- pc occurs in r, also a character of chunk
          exact hmiss pc (List.mem_cons_of_mem c hmem) rfl
    rw [hpre]
    simp

/-- Splitting a count at a junction whose left side ends in a character not
occurring in `pat`: no occurrence can straddle the junction. -/
theorem countOccur_append_left {pat a b : List Char} {cL : Char} (hne : pat ≠ [])
    (hL : a.getLast? = some cL) (hnot : cL ∉ pat) :
    countOccur pat (a ++ b) = countOccur pat a + countOccur pat b := by
  induction a with
  | nil => cases hL
  | cons c a' ih =>
    simp only [List.cons_append, countOccur, List.append_eq, List.nil_append]
    cases ha' : a' with
    | nil =>
      subst ha'
      have hc : c = cL := by simpa using hL
      subst hc
      simp only [List.nil_append, countOccur, Nat.add_zero]
      have hstep : ∀ t : List Char, pat.isPrefixOf (c :: t) = false := by
        intro t
        cases hp : pat.isPrefixOf (c :: t) with
        | false => rfl
        | true =>
          exfalso
          rcases List.isPrefixOf_iff_prefix.mp hp with ⟨u, hu⟩
          cases pat with
          | nil => exact hne rfl
          | cons p0 pr =>
            have hp0 : p0 = c := by
              have h2 := hu
              simp only [List.cons_append, List.cons.injEq] at h2
              exact h2.1
            exact hnot (hp0 ▸ List.mem_cons_self p0 pr)
      simp only [hstep]
    | cons a0 a1 =>
      rw [← ha']
      have hne2 : a' ≠ [] := by rw [ha']; simp
      have hL2 : a'.getLast? = some cL := by
        rw [ha'] at hL ⊢
        rwa [List.getLast?_cons_cons] at hL
      rw [ih hL2]
      have hpre : pat.isPrefixOf (c :: (a' ++ b)) = pat.isPrefixOf (c :: a') := by
        cases hp : pat.isPrefixOf (c :: a') with
        | true =>
          rcases List.isPrefixOf_iff_prefix.mp hp with ⟨t, ht⟩
          apply List.isPrefixOf_iff_prefix.mpr
          exact ⟨t ++ b, by rw [← List.append_assoc, ht, List.cons_append]⟩
        | false =>
          cases hp2 : pat.isPrefixOf (c :: (a' ++ b)) with
          | false => rfl
          | true =>
            exfalso
            rcases List.isPrefixOf_iff_prefix.mp hp2 with ⟨t, ht⟩
            have h3 : pat <+: (c :: a') ++ b := by
              rw [List.cons_append]
              exact ⟨t, ht⟩
            by_cases hlen : pat.length ≤ (c :: a').length
            · have h4 : pat <+: c :: a' :=
                List.prefix_of_prefix_length_le h3 (List.prefix_append _ _) hlen
              rw [List.isPrefixOf_iff_prefix.mpr h4] at hp
              cases hp
            · apply hnot
              have hcov : (c :: a') <+: pat :=
                List.prefix_of_prefix_length_le (List.prefix_append _ _) h3 (by omega)
              rcases hcov with ⟨t2, ht2⟩
              have hmem : cL ∈ c :: a' := List.mem_of_getLast?_eq_some hL
              rw [← ht2]
              exact List.mem_append_left t2 hmem
      simp only [hpre]
      omega

/-- Lower-casing fixes every non-word character (only upper-case letters,
which are word characters, are moved). -/
theorem lc_of_not_word {c : Char} (h : isWordChar c = false) : lc c = c := by
  unfold lc Char.toLower
  dsimp only
  by_cases hcond : c.toNat ≥ 65 ∧ c.toNat ≤ 90
  · exfalso
    have h1 : (65 : UInt32) ≤ c.val := by
      rw [UInt32.le_def, BitVec.le_def]
      exact hcond.1
    have h2 : c.val ≤ (90 : UInt32) := by
      rw [UInt32.le_def, BitVec.le_def]
      exact hcond.2
    have hw : isWordChar c = true := by
      unfold isWordChar Char.isAlphanum Char.isAlpha Char.isUpper
      simp [h1, h2]
    rw [hw] at h
    cases h
  · rw [if_neg hcond]

/-- A non-word character is not an element of an all-word-character
pattern. -/
theorem not_word_not_mem {c : Char} {pat : List Char} (hc : isWordChar c = false)
    (hpat : pat.all isWordChar = true) : c ∉ pat := by
  intro hmem
  have h2 : isWordChar c = true := List.all_eq_true.mp hpat c hmem
  rw [hc] at h2
  cases h2

/-- The word-boundary bit carried by the scanners after passing over a
segment: the bit after the segment's last character. -/
def afterBit (b : Bool) : List Char → Bool
  | [] => b
  | c :: r => afterBit (isWordChar c) r

theorem afterBit_eq (b : Bool) (s : List Char) :
    afterBit b s = ((s.getLast?).map isWordChar).getD b := by
  induction s generalizing b with
  | nil => rfl
  | cons c r ih =>
    cases r with
    | nil => rfl
    | cons d r' =>
      show afterBit (isWordChar c) (d :: r') = _
      rw [ih (isWordChar c), List.getLast?_cons_cons]
      rcases hx : (d :: r').getLast? with _ | x
      · exact absurd hx (by simp)
      · rfl

theorem afterBit_append (b : Bool) (x y : List Char) :
    afterBit b (x ++ y) = afterBit (afterBit b x) y := by
  induction x generalizing b with
  | nil => rfl
  | cons c t ih => exact ih (isWordChar c)

theorem reSubAux_nil (att : List Char → Option (List Char × List Char)) (fuel : Nat) (b : Bool) :
    reSubAux att fuel b [] = [] := by
  cases fuel <;> rfl

/-- The substitution scanner copies a segment at whose positions the attempt
always fails, and continues behind it with the segment's boundary bit. -/
theorem reSubAux_skip (att : List Char → Option (List Char × List Char))
    {seg : List Char} (rest : List Char) {fuel : Nat} (b : Bool)
    (hfuel : seg.length ≤ fuel)
    (hfail : ∀ i, i < seg.length → att (seg.drop i ++ rest) = none) :
    reSubAux att fuel b (seg ++ rest) =
      seg ++ reSubAux att (fuel - seg.length) (afterBit b seg) rest := by
  induction seg generalizing b fuel with
  | nil => simp [afterBit]
  | cons c t ih =>
    cases fuel with
    | zero => simp at hfuel
    | succ f =>
      have h0 : att (c :: (t ++ rest)) = none := by
        have h1 := hfail 0 (by simp)
        simpa using h1
      have hcase : (if b = true then none else att (c :: (t ++ rest))) = none := by
        cases b <;> simp [h0]
      have ht : ∀ i, i < t.length → att (t.drop i ++ rest) = none := by
        intro i hi
        have h2 := hfail (i + 1) (by simpa using Nat.succ_lt_succ hi)
        simpa using h2
      show reSubAux att (f + 1) b (c :: (t ++ rest)) = _
      simp only [reSubAux, hcase]
      rw [ih (isWordChar c) (Nat.le_of_succ_le_succ hfuel) ht]
      show c :: (t ++ _) = (c :: t) ++ _
      rw [List.cons_append]
      have hlen : f - t.length = f + 1 - (c :: t).length := by
        simp only [List.length_cons]
        omega
      rw [hlen]
      rfl

/-- One successful attempt of the substitution scanner at a boundary. -/
theorem reSubAux_match (att : List Char → Option (List Char × List Char))
    {c : Char} {r repl rest : List Char} (fuel : Nat)
    (h : att (c :: r) = some (repl, rest)) :
    reSubAux att (fuel + 1) false (c :: r) = repl ++ reSubAux att fuel true rest := by
  simp only [reSubAux]
  simp [h]

/-- The substitution scanner is the identity on a string at whose positions
the attempt always fails. -/
theorem reSubAux_id (att : List Char → Option (List Char × List Char))
    {s : List Char} (fuel : Nat) (b : Bool)
    (hfail : ∀ i, i < s.length → att (s.drop i) = none) :
    reSubAux att fuel b s = s := by
  induction s generalizing b fuel with
  | nil => exact reSubAux_nil att fuel b
  | cons c t ih =>
    cases fuel with
    | zero => rfl
    | succ f =>
      have h0 : att (c :: t) = none := by
        have h1 := hfail 0 (by simp)
        simpa using h1
      have hcase : (if b = true then none else att (c :: t)) = none := by
        cases b <;> simp [h0]
      have ht : ∀ i, i < t.length → att (t.drop i) = none := by
        intro i hi
        have h2 := hfail (i + 1) (by simpa using Nat.succ_lt_succ hi)
        simpa using h2
      simp only [reSubAux, hcase]
      rw [ih f (isWordChar c) ht]

/-- The search scanner finds nothing on a string at whose positions the
attempt always fails. -/
theorem reSearch_none {α : Type} (att : List Char → Option α) {s : List Char} (b : Bool)
    (hfail : ∀ i, i < s.length → att (s.drop i) = none) :
    reSearch att b s = none := by
  induction s generalizing b with
  | nil => rfl
  | cons c t ih =>
    have h0 : att (c :: t) = none := by
      have h1 := hfail 0 (by simp)
      simpa using h1
    have hcase : (if b = true then none else att (c :: t)) = none := by
      cases b <;> simp [h0]
    simp only [reSearch, hcase]
    exact ih (isWordChar c) (fun i hi => by
      have h2 := hfail (i + 1) (by simpa using Nat.succ_lt_succ hi)
      simpa using h2)

/-- The search scanner returns the first successful attempt: failures on a
leading segment whose boundary bit is clear, then a success. -/
theorem reSearch_found {α : Type} (att : List Char → Option α) {seg rest : List Char}
    (b : Bool) {v : α}
    (hfail : ∀ i, i < seg.length → att (seg.drop i ++ rest) = none)
    (hbit : afterBit b seg = false)
    (hv : att rest = some v) (hne : rest ≠ []) :
    reSearch att b (seg ++ rest) = some v := by
  induction seg generalizing b with
  | nil =>
    cases rest with
    | nil => exact absurd rfl hne
    | cons c t =>
      have hb : b = false := hbit
      subst hb
      show reSearch att false (c :: t) = some v
      simp only [reSearch]
      simp [hv]
  | cons c t ih =>
    have h0 : att (c :: (t ++ rest)) = none := by
      have h1 := hfail 0 (by simp)
      simpa using h1
    have hcase : (if b = true then none else att (c :: (t ++ rest))) = none := by
      cases b <;> simp [h0]
    show reSearch att b (c :: (t ++ rest)) = some v
    simp only [reSearch, hcase]
    exact ih (isWordChar c)
      (fun i hi => by
        have h2 := hfail (i + 1) (by simpa using Nat.succ_lt_succ hi)
        simpa using h2)
      hbit

/-- Splitting a count at a junction whose right side starts with a character
not occurring in `pat`: no occurrence can straddle the junction. -/
theorem countOccur_append_right {pat a b : List Char} {c0 : Char} (hne : pat ≠ [])
    (hb : b.head? = some c0) (hnot : c0 ∉ pat) :
    countOccur pat (a ++ b) = countOccur pat a + countOccur pat b := by
  induction a with
  | nil => simp [countOccur]
  | cons c a' ih =>
    simp only [List.cons_append, countOccur, List.append_eq]
    rw [ih]
    have hpre : pat.isPrefixOf (c :: (a' ++ b)) = pat.isPrefixOf (c :: a') := by
      cases hp : pat.isPrefixOf (c :: a') with
      | true =>
        rcases List.isPrefixOf_iff_prefix.mp hp with ⟨t, ht⟩
        apply List.isPrefixOf_iff_prefix.mpr
        exact ⟨t ++ b, by rw [← List.append_assoc, ht, List.cons_append]⟩
      | false =>
        cases hp2 : pat.isPrefixOf (c :: (a' ++ b)) with
        | false => rfl
        | true =>
          exfalso
          rcases List.isPrefixOf_iff_prefix.mp hp2 with ⟨t, ht⟩
          have h3 : pat <+: (c :: a') ++ b := by
            rw [List.cons_append]
            exact ⟨t, ht⟩
          by_cases hlen : pat.length ≤ (c :: a').length
          · have h4 : pat <+: c :: a' :=
              List.prefix_of_prefix_length_le h3 (List.prefix_append _ _) hlen
            rw [List.isPrefixOf_iff_prefix.mpr h4] at hp
            cases hp
          · rcases List.prefix_of_prefix_length_le (List.prefix_append (c :: a') b) h3
                (by omega) with ⟨t2, ht2⟩
            cases t2 with
            | nil =>
              apply hlen
              rw [← ht2]
              simp
            | cons x t2' =>
              rcases h3 with ⟨t3, ht3⟩
              rw [← ht2, List.append_assoc] at ht3
              have hb2 : (x :: t2') ++ t3 = b := List.append_cancel_left ht3
              have hx : x = c0 := by
                have hh := congrArg List.head? hb2
                simp only [List.cons_append, List.head?_cons] at hh
                rw [hb] at hh
                exact Option.some.inj hh
              apply hnot
              rw [← hx, ← ht2]
              exact List.mem_append_right _ (List.mem_cons_self _ _)
    simp only [hpre]
    omega

/-- A junction-splitting step that also admits an empty left side. -/
theorem countOccur_append_side {pat a b : List Char} (hne : pat ≠ [])
    (h : a = [] ∨ ∃ c, a.getLast? = some c ∧ c ∉ pat) :
    countOccur pat (a ++ b) = countOccur pat a + countOccur pat b := by
  rcases h with rfl | ⟨c, hc, hmem⟩
  · simp [countOccur]
  · exact countOccur_append_left hne hc hmem

/-- Splitting a five-segment concatenation where every junction character is
foreign to the pattern. -/
theorem countOccur_decomp5 {pat : List Char} (a b c d e : List Char) (hne : pat ≠ [])
    (hab : a = [] ∨ ∃ x, a.getLast? = some x ∧ x ∉ pat)
    (hbc : ∃ x, b.getLast? = some x ∧ x ∉ pat)
    (hcd : ∃ x, c.getLast? = some x ∧ x ∉ pat)
    (hde : ∃ x, d.getLast? = some x ∧ x ∉ pat) :
    countOccur pat (a ++ (b ++ (c ++ (d ++ e)))) =
      countOccur pat a + countOccur pat b + countOccur pat c + countOccur pat d +
        countOccur pat e := by
  rw [countOccur_append_side hne hab, countOccur_append_side hne (Or.inr hbc),
    countOccur_append_side hne (Or.inr hcd), countOccur_append_side hne (Or.inr hde)]
  omega

/-- A nonempty pattern occurs exactly `countOccur` times; occurring zero
times is Python's `not in`. -/
theorem countOccur_eq_zero_iff {pat s : List Char} (hne : pat ≠ []) :
    countOccur pat s = 0 ↔ occursB pat s = false := by
  induction s with
  | nil =>
    cases pat with
    | nil => exact absurd rfl hne
    | cons p ps => simp [countOccur, occursB, List.isPrefixOf]
  | cons c r ih =>
    by_cases hp : pat.isPrefixOf (c :: r)
    · simp [countOccur, occursB, hp]
    · simp [countOccur, occursB, hp, ih]

/-- A prefix occurrence at any position forces a positive count. -/
theorem countOccur_pos {pat s : List Char} {i : Nat} (hne : pat ≠ [])
    (h : pat.isPrefixOf (s.drop i) = true) : 1 ≤ countOccur pat s := by
  induction s generalizing i with
  | nil =>
    rw [List.drop_nil] at h
    cases pat with
    | nil => exact absurd rfl hne
    | cons p ps => simp [List.isPrefixOf] at h
  | cons c r ih =>
    cases i with
    | zero =>
      rw [List.drop_zero] at h
      simp only [countOccur, h, eq_self_iff_true, if_true]
      omega
    | succ i' =>
      have h2 := ih (i := i') (by simpa [List.drop_succ_cons] using h)
      simp only [countOccur]
      omega

/-- Two prefix occurrences at distinct positions force a count of at least
two. -/
theorem countOccur_two {pat s : List Char} {i j : Nat} (hne : pat ≠ []) (hij : i < j)
    (hi : pat.isPrefixOf (s.drop i) = true) (hj : pat.isPrefixOf (s.drop j) = true) :
    2 ≤ countOccur pat s := by
  induction s generalizing i j with
  | nil =>
    rw [List.drop_nil] at hi
    cases pat with
    | nil => exact absurd rfl hne
    | cons p ps => simp [List.isPrefixOf] at hi
  | cons c r ih =>
    cases i with
    | zero =>
      rw [List.drop_zero] at hi
      cases j with
      | zero => omega
      | succ j' =>
        have h2 : 1 ≤ countOccur pat r :=
          countOccur_pos hne (i := j') (by simpa [List.drop_succ_cons] using hj)
        simp only [countOccur, hi, eq_self_iff_true, if_true]
        omega
    | succ i' =>
      cases j with
      | zero => omega
      | succ j' =>
        have h2 := ih (i := i') (j := j') (by omega)
          (by simpa [List.drop_succ_cons] using hi)
          (by simpa [List.drop_succ_cons] using hj)
        simp only [countOccur]
        omega

/-- With a total count of one and a known occurrence at position `k`, every
other position carries no occurrence. -/
theorem countOccur_unique {pat s : List Char} {k i : Nat} (hne : pat ≠ [])
    (hcount : countOccur pat s = 1) (hk : pat.isPrefixOf (s.drop k) = true) (hik : i ≠ k) :
    pat.isPrefixOf (s.drop i) = false := by
  cases hp : pat.isPrefixOf (s.drop i) with
  | false => rfl
  | true =>
    exfalso
    rcases Nat.lt_or_ge i k with h | h
    · have h2 := countOccur_two hne h hp hk
      omega
    · have hki : k < i := by omega
      have h2 := countOccur_two hne hki hk hp
      omega

/-- A prefix of the left half is a prefix of the concatenation. -/
theorem isPrefixOf_append_of {p a : List Char} (b : List Char) (h : p.isPrefixOf a = true) :
    p.isPrefixOf (a ++ b) = true :=
  List.isPrefixOf_iff_prefix.mpr ((List.isPrefixOf_iff_prefix.mp h).trans (List.prefix_append a b))

/-- The case-insensitive literal matcher fails when the literal is not a
prefix of the lower-cased input. -/
theorem matchLitCI_none_of {L s : List Char} (h : L.isPrefixOf (lcs s) = false) :
    matchLitCI L s = none := by
  cases hm : matchLitCI L s with
  | none => rfl
  | some r =>
    exfalso
    rcases matchLitCI_eq_some.mp hm with ⟨a, rfl, ha⟩
    have h2 : L.isPrefixOf (lcs (a ++ r)) = true := by
      apply List.isPrefixOf_iff_prefix.mpr
      rw [← ha]
      exact ⟨lcs r, by simp [lcs]⟩
    rw [h2] at h
    cases h

theorem matchEntityOf_none_of {old s : List Char}
    (h : kwEntity.isPrefixOf (lcs s) = false) : matchEntityOf old s = none := by
  unfold matchEntityOf
  rw [matchLitCI_none_of h]
  rfl

theorem matchEntityV_none_of {s : List Char}
    (h : kwEntity.isPrefixOf (lcs s) = false) : matchEntityV s = none := by
  unfold matchEntityV
  rw [matchLitCI_none_of h]
  rfl

theorem matchEntityDecl_none_of {s : List Char}
    (h : kwEntity.isPrefixOf (lcs s) = false) : matchEntityDecl s = none := by
  unfold matchEntityDecl
  rw [matchLitCI_none_of h]
  rfl

theorem matchArchOf_none_of {old s : List Char}
    (h : kwArchitecture.isPrefixOf (lcs s) = false) : matchArchOf old s = none := by
  unfold matchArchOf
  rw [matchLitCI_none_of h]
  rfl

theorem matchArchV_none_of {s : List Char}
    (h : kwArchitecture.isPrefixOf (lcs s) = false) : matchArchV s = none := by
  unfold matchArchV
  rw [matchLitCI_none_of h]
  rfl

theorem attEntityOf_none_of {old new s : List Char}
    (h : kwEntity.isPrefixOf (lcs s) = false) : attEntityOf old new s = none := by
  unfold attEntityOf
  rw [matchEntityOf_none_of h]
  rfl

theorem attArchOf_none_of {old new s : List Char}
    (h : kwArchitecture.isPrefixOf (lcs s) = false) : attArchOf old new s = none := by
  unfold attArchOf
  rw [matchArchOf_none_of h]
  rfl

/-! ## The concrete declaration sites of the rewrite claims -/

def entityFooIs : List Char := "entity foo is".data
def archOfFoo : List Char := "architecture arch of foo is".data
def strFoo : List Char := "foo".data
def strBar : List Char := "bar".data
def strArch : List Char := "arch".data
def strFoobar : List Char := "foobar".data

theorem matchEntityOf_at (rest : List Char) :
    matchEntityOf strFoo (entityFooIs ++ rest) = some rest := rfl

theorem matchEntityV_at (rest : List Char) :
    matchEntityV (entityFooIs ++ rest) = some rest := rfl

theorem matchEntityDecl_at (rest : List Char) :
    matchEntityDecl (entityFooIs ++ rest) = some (strFoo, rest) := rfl

theorem matchArchOf_at (rest : List Char) :
    matchArchOf strFoo (archOfFoo ++ rest) = some (strArch, rest) := rfl

theorem matchArchV_at (rest : List Char) :
    matchArchV (archOfFoo ++ rest) = some rest := rfl

theorem attEntityOf_at (new rest : List Char) :
    attEntityOf strFoo new (entityFooIs ++ rest) = some (replEntity new, rest) := by
  unfold attEntityOf
  rw [matchEntityOf_at]
  rfl

theorem attArchOf_at (new rest : List Char) :
    attArchOf strFoo new (archOfFoo ++ rest) = some (replArch strArch new, rest) := by
  unfold attArchOf
  rw [matchArchOf_at]
  rfl

/-! ## Structure of the instantiated replacement texts -/

theorem countOccur_cons_not_mem {pat : List Char} {c : Char} (y : List Char)
    (hc : c ∉ pat) (hne : pat ≠ []) : countOccur pat (c :: y) = countOccur pat y := by
  simp only [countOccur]
  have hp : pat.isPrefixOf (c :: y) = false := by
    cases hp2 : pat.isPrefixOf (c :: y) with
    | false => rfl
    | true =>
      exfalso
      rcases List.isPrefixOf_iff_prefix.mp hp2 with ⟨t, ht⟩
      cases pat with
      | nil => exact hne rfl
      | cons p0 pr =>
        have hp0 : p0 = c := by
          have h2 := ht
          simp only [List.cons_append, List.cons.injEq] at h2
          exact h2.1
        exact hc (hp0 ▸ List.mem_cons_self p0 pr)
  simp [hp]

theorem lcs_replEntity (new : List Char) :
    lcs (replEntity new) = (kwEntity ++ (' ' :: lcs new)) ++ (' ' :: kwIs) := by
  unfold replEntity
  simp only [lcs, List.map_append, List.map_cons]
  rw [show List.map lc kwEntity = kwEntity from by decide,
    show lc ' ' = ' ' from by decide,
    show List.map lc kwIs = kwIs from by decide]

theorem lcs_replArch (new : List Char) :
    lcs (replArch strArch new) =
      (((kwArchitecture ++ (' ' :: strArch)) ++ (' ' :: kwOf)) ++ (' ' :: lcs new)) ++
        (' ' :: kwIs) := by
  unfold replArch
  simp only [lcs, List.map_append, List.map_cons]
  rw [show List.map lc kwArchitecture = kwArchitecture from by decide,
    show lc ' ' = ' ' from by decide,
    show List.map lc strArch = strArch from by decide,
    show List.map lc kwOf = kwOf from by decide,
    show List.map lc kwIs = kwIs from by decide]

/-- Occurrence count of a word-pattern inside the instantiated
`entity NEW is` replacement. -/
theorem countOccur_replEntity {pat new : List Char} (hne : pat ≠ []) (hsp : ' ' ∉ pat)
    (hnew : occursB pat (lcs new) = false) :
    countOccur pat (lcs (replEntity new)) = countOccur pat kwEntity + countOccur pat kwIs := by
  rw [lcs_replEntity,
    countOccur_append_right hne (show (' ' :: kwIs).head? = some ' ' from rfl) hsp,
    countOccur_append_right hne (show (' ' :: lcs new).head? = some ' ' from rfl) hsp,
    countOccur_cons_not_mem _ hsp hne, countOccur_cons_not_mem _ hsp hne,
    (countOccur_eq_zero_iff hne).mpr hnew]
  omega

/-- Occurrence count of a word-pattern inside the instantiated
`architecture arch of NEW is` replacement. -/
theorem countOccur_replArch {pat new : List Char} (hne : pat ≠ []) (hsp : ' ' ∉ pat)
    (hnew : occursB pat (lcs new) = false) :
    countOccur pat (lcs (replArch strArch new)) =
      countOccur pat kwArchitecture + countOccur pat strArch + countOccur pat kwOf +
        countOccur pat kwIs := by
  rw [lcs_replArch,
    countOccur_append_right hne (show (' ' :: kwIs).head? = some ' ' from rfl) hsp,
    countOccur_append_right hne (show (' ' :: lcs new).head? = some ' ' from rfl) hsp,
    countOccur_append_right hne (show (' ' :: kwOf).head? = some ' ' from rfl) hsp,
    countOccur_append_right hne (show (' ' :: strArch).head? = some ' ' from rfl) hsp,
    countOccur_cons_not_mem _ hsp hne, countOccur_cons_not_mem _ hsp hne,
    countOccur_cons_not_mem _ hsp hne, countOccur_cons_not_mem _ hsp hne,
    (countOccur_eq_zero_iff hne).mpr hnew]
  omega

theorem getLast_replEntity (new : List Char) : (replEntity new).getLast? = some 's' := by
  unfold replEntity
  rw [List.getLast?_append]
  rfl

theorem getLast_replArch (new : List Char) : (replArch strArch new).getLast? = some 's' := by
  unfold replArch
  rw [List.getLast?_append]
  rfl

theorem getLast_lcs_replEntity (new : List Char) :
    (lcs (replEntity new)).getLast? = some 's' := by
  rw [lcs_replEntity, List.getLast?_append]
  rfl

theorem getLast_lcs_replArch (new : List Char) :
    (lcs (replArch strArch new)).getLast? = some 's' := by
  rw [lcs_replArch, List.getLast?_append]
  rfl

/-- After the old name `foo` is attempted against a different all-word
identifier followed by a space, the literal-then-whitespace step of the
pattern cannot get past the identifier. -/
theorem foo_site_blocked {name : List Char} (rest1 : List Char) (hne : name ≠ [])
    (hw : name.all isWordChar = true) (hfoo : lcs name ≠ strFoo) :
    (matchLitCI strFoo (name ++ (' ' :: rest1))).bind matchSpaces1 = none := by
  have hsp : (lc ' ' == 'o') = false := by decide
  rcases name with _ | ⟨a, _ | ⟨b, _ | ⟨c, name'⟩⟩⟩
  · exact absurd rfl hne
  · show (matchLitCI ('f' :: 'o' :: 'o' :: []) (a :: ' ' :: rest1)).bind matchSpaces1 = none
    simp [matchLitCI, hsp, ite_self]
  · show (matchLitCI ('f' :: 'o' :: 'o' :: []) (a :: b :: ' ' :: rest1)).bind matchSpaces1 = none
    simp [matchLitCI, hsp, ite_self]
  · show (matchLitCI ('f' :: 'o' :: 'o' :: [])
        (a :: b :: c :: (name' ++ (' ' :: rest1)))).bind matchSpaces1 = none
    by_cases hfa : (lc a == 'f') = true
    · by_cases hfb : (lc b == 'o') = true
      · by_cases hfc : (lc c == 'o') = true
        · cases name' with
          | nil =>
            exfalso
            apply hfoo
            show [lc a, lc b, lc c] = strFoo
            rw [show lc a = 'f' from by simpa using hfa,
              show lc b = 'o' from by simpa using hfb,
              show lc c = 'o' from by simpa using hfc]
            decide
          | cons d name'' =>
            have hd : isWordChar d = true := by
              have h2 := List.all_eq_true.mp hw d (by simp)
              exact h2
            have hds : isSpaceChar d = false := not_space_of_word hd
            simp [matchLitCI, hfa, hfb, hfc, matchSpaces1, hds]
        · simp [matchLitCI, hfa, hfb, hfc]
      · simp [matchLitCI, hfa, hfb]
    · simp [matchLitCI, hfa]

theorem matchEntityOf_repl_reduce (name rest : List Char) :
    matchEntityOf strFoo (replEntity name ++ rest) =
      (matchLitCI (lcs strFoo) (((name ++ (' ' :: kwIs)) ++ rest).dropWhile isSpaceChar)).bind
        (fun s => (matchSpaces1 s).bind fun s2 => matchLitCI kwIs s2) := by
  with_unfolding_all rfl

theorem matchArchOf_repl_reduce (name rest : List Char) :
    matchArchOf strFoo (replArch strArch name ++ rest) =
      (matchLitCI (lcs strFoo) (((name ++ (' ' :: kwIs)) ++ rest).dropWhile isSpaceChar)).bind
        (fun s => (matchSpaces1 s).bind fun s2 =>
          (matchLitCI kwIs s2).bind fun s3 => some (strArch, s3)) := by
  with_unfolding_all rfl

/-- The whitespace step preceding the old name cannot eat into the new
name's leading word character. -/
theorem dropSpace_ident (name : List Char) (tail : List Char) (hne : name ≠ [])
    (hw : name.all isWordChar = true) :
    (name ++ tail).dropWhile isSpaceChar = name ++ tail := by
  cases name with
  | nil => exact absurd rfl hne
  | cons n0 nt =>
    have hn0 : isSpaceChar n0 = false :=
      not_space_of_word (List.all_eq_true.mp hw n0 (by simp))
    simp only [List.cons_append]
    rw [List.dropWhile_cons_of_neg (by simp [hn0])]

/-- The rewritten entity declaration no longer matches the old-name entity
pattern (for a new name that is a word identifier other than `foo`). -/
theorem matchEntityOf_repl_none {name : List Char} (rest : List Char) (hne : name ≠ [])
    (hw : name.all isWordChar = true) (hfoo : lcs name ≠ strFoo) :
    matchEntityOf strFoo (replEntity name ++ rest) = none := by
  rw [matchEntityOf_repl_reduce, List.append_assoc, List.cons_append,
    dropSpace_ident name _ hne hw,
    show lcs strFoo = strFoo from by decide, ← Option.bind_assoc,
    foo_site_blocked (kwIs ++ rest) hne hw hfoo]
  rfl

/-- The rewritten architecture declaration no longer matches the old-name
architecture pattern. -/
theorem matchArchOf_repl_none {name : List Char} (rest : List Char) (hne : name ≠ [])
    (hw : name.all isWordChar = true) (hfoo : lcs name ≠ strFoo) :
    matchArchOf strFoo (replArch strArch name ++ rest) = none := by
  rw [matchArchOf_repl_reduce, List.append_assoc, List.cons_append,
    dropSpace_ident name _ hne hw,
    show lcs strFoo = strFoo from by decide, ← Option.bind_assoc,
    foo_site_blocked (kwIs ++ rest) hne hw hfoo]
  rfl

/-- A matcher that needs a keyword prefix fails at every non-occurrence
position. -/
theorem fail_at_of_none_of {α : Type} {m : List Char → Option α} {kw code : List Char}
    {k i : Nat}
    (hm : ∀ s, kw.isPrefixOf (lcs s) = false → m s = none)
    (hkw : kw ≠ [])
    (hcount : countOccur kw (lcs code) = 1)
    (hk : kw.isPrefixOf ((lcs code).drop k) = true) (hik : i ≠ k) :
    m (code.drop i) = none := by
  apply hm
  show kw.isPrefixOf (List.map lc (code.drop i)) = false
  rw [List.map_drop]
  exact countOccur_unique hkw hcount hk hik

theorem drop_lcs_left (x y : List Char) : (lcs (x ++ y)).drop x.length = lcs y := by
  show (List.map lc (x ++ y)).drop x.length = List.map lc y
  rw [List.map_append, show x.length = (List.map lc x).length from by simp]
  exact List.drop_left _ _

theorem drop_lcs_pos (x y : List Char) (n : Nat) :
    (lcs (x ++ y)).drop (x.length + n) = (lcs y).drop n := by
  rw [← List.drop_drop, drop_lcs_left]

theorem lcs_append (x y : List Char) : lcs (x ++ y) = lcs x ++ lcs y :=
  List.map_append lc x y

theorem afterBit_last {b : Bool} {s : List Char} {c : Char} (h : s.getLast? = some c)
    (hw : isWordChar c = false) : afterBit b s = false := by
  rw [afterBit_eq, h]
  simpa using hw

/-- Junction shape of a segment ending in a non-word character, after
lower-casing, relative to an all-word pattern. -/
theorem lastNotWord_side {s pat : List Char} (hpat : pat.all isWordChar = true)
    (h : ∃ c, s.getLast? = some c ∧ isWordChar c = false) :
    ∃ x, (lcs s).getLast? = some x ∧ x ∉ pat := by
  rcases h with ⟨c, hc, hw⟩
  refine ⟨c, ?_, not_word_not_mem hw hpat⟩
  show (List.map lc s).getLast? = some c
  rw [List.getLast?_map, hc]
  simp [lc_of_not_word hw]

/-- One pass of `re.sub` over a string with exactly one match site: the
attempt fails on the prefix and on the tail, succeeds at the site, and the
prefix ends at a word boundary. -/
theorem sub_single_site (att : List Char → Option (List Char × List Char))
    (pre seg rest repl : List Char)
    (hpre_fail : ∀ i, i < pre.length → att (pre.drop i ++ (seg ++ rest)) = none)
    (hbit : afterBit false pre = false)
    (hmatch : att (seg ++ rest) = some (repl, rest))
    (hseg_ne : seg ≠ [])
    (hrest_fail : ∀ i, i < rest.length → att (rest.drop i) = none) :
    reSubAux att (pre ++ (seg ++ rest)).length false (pre ++ (seg ++ rest)) =
      pre ++ (repl ++ rest) := by
  rw [reSubAux_skip att (seg ++ rest) false
    (by simp only [List.length_append]; omega) hpre_fail, hbit]
  have hf1 : (pre ++ (seg ++ rest)).length - pre.length = (seg ++ rest).length := by
    simp only [List.length_append]
    omega
  rw [hf1]
  rcases seg with _ | ⟨c, segt⟩
  · exact absurd rfl hseg_ne
  · have hmatch2 : att (c :: (segt ++ rest)) = some (repl, rest) := by
      rw [← List.cons_append]
      exact hmatch
    have hf2 : ((c :: segt) ++ rest).length = (segt ++ rest).length + 1 := by
      simp
    rw [hf2, List.cons_append, reSubAux_match att ((segt ++ rest).length) hmatch2,
      reSubAux_id att ((segt ++ rest).length) true hrest_fail]

/-- Occurrence count of an all-word pattern over the five-segment
decomposition used by the rewrite claims. -/
theorem countOccur_code_decomp (pat X Y post : List Char) {pre mid : List Char}
    (hne : pat ≠ []) (hpat : pat.all isWordChar = true)
    (hpre : pre = [] ∨ ∃ c, pre.getLast? = some c ∧ isWordChar c = false)
    (hmid : ∃ c, mid.getLast? = some c ∧ isWordChar c = false)
    (hX : ∃ x, (lcs X).getLast? = some x ∧ x ∉ pat)
    (hY : ∃ x, (lcs Y).getLast? = some x ∧ x ∉ pat) :
    countOccur pat (lcs (pre ++ (X ++ (mid ++ (Y ++ post))))) =
      countOccur pat (lcs pre) + countOccur pat (lcs X) + countOccur pat (lcs mid) +
        countOccur pat (lcs Y) + countOccur pat (lcs post) := by
  rw [lcs_append, lcs_append, lcs_append, lcs_append]
  refine countOccur_decomp5 _ _ _ _ _ hne ?_ hX (lastNotWord_side hpat hmid) hY
  rcases hpre with rfl | h
  · left
    rfl
  · right
    exact lastNotWord_side hpat h

theorem replace_entity_name_vhdl (code old new : List Char) :
    replace_entity_name code old new strVhdl =
      reSubAux (attArchOf old new)
        (reSubAux (attEntityOf old new) code.length false code).length false
        (reSubAux (attEntityOf old new) code.length false code) := rfl

/-- The two-pass rewrite on a VHDL source of the decomposed shape: the
declaration sites sit at word boundaries and the keywords occur nowhere
else, so each pass rewrites exactly its declaration site. -/
theorem rewrite_decomposed (pre mid post new : List Char)
    (hnew_ne : new ≠ []) (hnew_w : new.all isWordChar = true)
    (hnew_a : occursB kwArchitecture (lcs new) = false)
    (hpre : pre = [] ∨ ∃ c, pre.getLast? = some c ∧ isWordChar c = false)
    (hmid : ∃ c, mid.getLast? = some c ∧ isWordChar c = false)
    (hent : countOccur kwEntity (lcs (pre ++ entityFooIs ++ mid ++ archOfFoo ++ post)) = 1)
    (harch : countOccur kwArchitecture
      (lcs (pre ++ entityFooIs ++ mid ++ archOfFoo ++ post)) = 1) :
    replace_entity_name (pre ++ entityFooIs ++ mid ++ archOfFoo ++ post) strFoo new strVhdl =
      pre ++ replEntity new ++ mid ++ replArch strArch new ++ post := by
  have hassoc : pre ++ entityFooIs ++ mid ++ archOfFoo ++ post =
      pre ++ (entityFooIs ++ (mid ++ (archOfFoo ++ post))) := by
    simp [List.append_assoc]
  rw [hassoc] at hent harch ⊢
  have harchD : countOccur kwArchitecture
      (lcs (pre ++ (entityFooIs ++ (mid ++ (archOfFoo ++ post))))) =
      countOccur kwArchitecture (lcs pre) + 0 + countOccur kwArchitecture (lcs mid) + 1 +
        countOccur kwArchitecture (lcs post) := by
    rw [countOccur_code_decomp kwArchitecture entityFooIs archOfFoo post (by decide) (by decide)
        hpre hmid ⟨'s', by decide, by decide⟩ ⟨'s', by decide, by decide⟩,
      show countOccur kwArchitecture (lcs entityFooIs) = 0 from by decide,
      show countOccur kwArchitecture (lcs archOfFoo) = 1 from by decide]
  have hpreA : countOccur kwArchitecture (lcs pre) = 0 := by omega
  have hmidA : countOccur kwArchitecture (lcs mid) = 0 := by omega
  have hpostA : countOccur kwArchitecture (lcs post) = 0 := by omega
  have hkE : kwEntity.isPrefixOf
      ((lcs (pre ++ (entityFooIs ++ (mid ++ (archOfFoo ++ post))))).drop pre.length) = true := by
    rw [drop_lcs_left, lcs_append]
    exact isPrefixOf_append_of _ (by decide)
  have hpre_fail : ∀ i, i < pre.length →
      attEntityOf strFoo new
        (pre.drop i ++ (entityFooIs ++ (mid ++ (archOfFoo ++ post)))) = none := by
    intro i hi
    rw [← List.drop_append_of_le_length (le_of_lt hi)]
    exact fail_at_of_none_of (fun s h => attEntityOf_none_of h) (by decide) hent hkE
      (by omega)
  have hbit1 : afterBit false pre = false := by
    rcases hpre with rfl | ⟨c, hc, hw⟩
    · rfl
    · exact afterBit_last hc hw
  have hrest_fail1 : ∀ i, i < (mid ++ (archOfFoo ++ post)).length →
      attEntityOf strFoo new ((mid ++ (archOfFoo ++ post)).drop i) = none := by
    intro i hi
    have hdrop : (mid ++ (archOfFoo ++ post)).drop i =
        (pre ++ (entityFooIs ++ (mid ++ (archOfFoo ++ post)))).drop
          (pre.length + (13 + i)) := by
      rw [← List.drop_drop, List.drop_left, ← List.drop_drop,
        show (entityFooIs ++ (mid ++ (archOfFoo ++ post))).drop 13 =
          mid ++ (archOfFoo ++ post) from rfl]
    rw [hdrop]
    exact fail_at_of_none_of (fun s h => attEntityOf_none_of h) (by decide) hent hkE
      (by omega)
  have hpass1 : reSubAux (attEntityOf strFoo new)
      (pre ++ (entityFooIs ++ (mid ++ (archOfFoo ++ post)))).length false
      (pre ++ (entityFooIs ++ (mid ++ (archOfFoo ++ post)))) =
      pre ++ (replEntity new ++ (mid ++ (archOfFoo ++ post))) :=
    sub_single_site _ pre entityFooIs _ _ hpre_fail hbit1
      (attEntityOf_at new (mid ++ (archOfFoo ++ post))) (by decide) hrest_fail1
  have hassoc2 : pre ++ (replEntity new ++ (mid ++ (archOfFoo ++ post))) =
      (pre ++ (replEntity new ++ mid)) ++ (archOfFoo ++ post) := by
    simp [List.append_assoc]
  have harch1 : countOccur kwArchitecture
      (lcs ((pre ++ (replEntity new ++ mid)) ++ (archOfFoo ++ post))) = 1 := by
    rw [← hassoc2,
      countOccur_code_decomp kwArchitecture (replEntity new) archOfFoo post (by decide)
        (by decide) hpre hmid ⟨'s', getLast_lcs_replEntity new, by decide⟩
        ⟨'s', by decide, by decide⟩,
      countOccur_replEntity (by decide) (by decide) hnew_a,
      show countOccur kwArchitecture kwEntity = 0 from by decide,
      show countOccur kwArchitecture kwIs = 0 from by decide,
      show countOccur kwArchitecture (lcs archOfFoo) = 1 from by decide]
    omega
  have hkA : kwArchitecture.isPrefixOf
      ((lcs ((pre ++ (replEntity new ++ mid)) ++ (archOfFoo ++ post))).drop
        (pre ++ (replEntity new ++ mid)).length) = true := by
    rw [drop_lcs_left, lcs_append]
    exact isPrefixOf_append_of _ (by decide)
  have hpre2_fail : ∀ i, i < (pre ++ (replEntity new ++ mid)).length →
      attArchOf strFoo new
        ((pre ++ (replEntity new ++ mid)).drop i ++ (archOfFoo ++ post)) = none := by
    intro i hi
    rw [← List.drop_append_of_le_length (le_of_lt hi)]
    exact fail_at_of_none_of (fun s h => attArchOf_none_of h) (by decide) harch1 hkA
      (by omega)
  have hbit2 : afterBit false (pre ++ (replEntity new ++ mid)) = false := by
    rw [afterBit_append, afterBit_append]
    rcases hmid with ⟨c, hc, hw⟩
    exact afterBit_last hc hw
  have hrest_fail2 : ∀ i, i < post.length → attArchOf strFoo new (post.drop i) = none := by
    intro i hi
    have hdrop2 : post.drop i =
        ((pre ++ (replEntity new ++ mid)) ++ (archOfFoo ++ post)).drop
          ((pre ++ (replEntity new ++ mid)).length + (27 + i)) := by
      rw [← List.drop_drop, List.drop_left, ← List.drop_drop,
        show (archOfFoo ++ post).drop 27 = post from rfl]
    rw [hdrop2]
    exact fail_at_of_none_of (fun s h => attArchOf_none_of h) (by decide) harch1 hkA
      (by omega)
  have hpass2 : reSubAux (attArchOf strFoo new)
      ((pre ++ (replEntity new ++ mid)) ++ (archOfFoo ++ post)).length false
      ((pre ++ (replEntity new ++ mid)) ++ (archOfFoo ++ post)) =
      (pre ++ (replEntity new ++ mid)) ++ (replArch strArch new ++ post) :=
    sub_single_site _ (pre ++ (replEntity new ++ mid)) archOfFoo post (replArch strArch new)
      hpre2_fail hbit2 (attArchOf_at new post) (by decide) hrest_fail2
  rw [replace_entity_name_vhdl, hpass1, hassoc2, hpass2]
  simp [List.append_assoc]

/-- C2 counterexample: the source `xentity foo is architecture arch of foo
is` contains both `entity foo is` and `architecture arch of foo is` as
substrings, yet rewriting `foo` to `bar` does not produce `entity bar is`
and leaves `entity foo is` in place, because the `\b`-anchored entity
pattern does not match inside the identifier `xentity`.  The claim's
universal statement over all sources containing the two phrases is
therefore false. -/
theorem C2_counterexample :
    occursB "entity foo is".data "xentity foo is architecture arch of foo is".data = true ∧
    occursB "architecture arch of foo is".data
      "xentity foo is architecture arch of foo is".data = true ∧
    occursB "entity bar is".data
      (replace_entity_name "xentity foo is architecture arch of foo is".data
        "foo".data "bar".data strVhdl) = false ∧
    occursB "entity foo is".data
      (replace_entity_name "xentity foo is architecture arch of foo is".data
        "foo".data "bar".data strVhdl) = true := by
  decide

/-- C2 (corrected): for a VHDL source decomposed as
`pre ++ "entity foo is" ++ mid ++ "architecture arch of foo is" ++ post`
where the two declarations sit at word boundaries (`pre` is empty or ends in
a non-word character, `mid` ends in a non-word character) and the keywords
`entity` and `architecture` occur (case-insensitively) nowhere else,
rewriting `foo` to `bar` rewrites exactly the two declaration sites:
`entity bar is` and `architecture arch of bar is` both appear, no
boundary-anchored `entity foo is` or `architecture ... of foo is`
declaration remains, and the occurrence count of the unrelated identifier
`foobar` is unchanged. -/
theorem C2_rewrite_correct (pre mid post : List Char)
    (hpre : pre = [] ∨ ∃ c, pre.getLast? = some c ∧ isWordChar c = false)
    (hmid : ∃ c, mid.getLast? = some c ∧ isWordChar c = false)
    (hent : countOccur kwEntity (lcs (pre ++ entityFooIs ++ mid ++ archOfFoo ++ post)) = 1)
    (harch : countOccur kwArchitecture
      (lcs (pre ++ entityFooIs ++ mid ++ archOfFoo ++ post)) = 1) :
    replace_entity_name (pre ++ entityFooIs ++ mid ++ archOfFoo ++ post) strFoo strBar
        strVhdl =
      pre ++ "entity bar is".data ++ mid ++ "architecture arch of bar is".data ++ post ∧
    occursB "entity bar is".data
      (replace_entity_name (pre ++ entityFooIs ++ mid ++ archOfFoo ++ post) strFoo strBar
        strVhdl) = true ∧
    occursB "architecture arch of bar is".data
      (replace_entity_name (pre ++ entityFooIs ++ mid ++ archOfFoo ++ post) strFoo strBar
        strVhdl) = true ∧
    reSearch (matchEntityOf strFoo) false
      (replace_entity_name (pre ++ entityFooIs ++ mid ++ archOfFoo ++ post) strFoo strBar
        strVhdl) = none ∧
    reSearch (matchArchOf strFoo) false
      (replace_entity_name (pre ++ entityFooIs ++ mid ++ archOfFoo ++ post) strFoo strBar
        strVhdl) = none ∧
    countOccur strFoobar
      (replace_entity_name (pre ++ entityFooIs ++ mid ++ archOfFoo ++ post) strFoo strBar
        strVhdl) =
      countOccur strFoobar (pre ++ entityFooIs ++ mid ++ archOfFoo ++ post) := by
  have hmain := rewrite_decomposed pre mid post strBar (by decide) (by decide) (by decide)
    hpre hmid hent harch
  have hdisp : pre ++ replEntity strBar ++ mid ++ replArch strArch strBar ++ post =
      pre ++ "entity bar is".data ++ mid ++ "architecture arch of bar is".data ++ post := rfl
  have hres0 : pre ++ replEntity strBar ++ mid ++ replArch strArch strBar ++ post =
      pre ++ (replEntity strBar ++ (mid ++ (replArch strArch strBar ++ post))) := by
    simp [List.append_assoc]
  have hres2 : pre ++ (replEntity strBar ++ (mid ++ (replArch strArch strBar ++ post))) =
      (pre ++ (replEntity strBar ++ mid)) ++ (replArch strArch strBar ++ post) := by
    simp [List.append_assoc]
  have hentR : countOccur kwEntity
      (lcs (pre ++ (replEntity strBar ++ (mid ++ (replArch strArch strBar ++ post))))) = 1 := by
    have hassoc : pre ++ entityFooIs ++ mid ++ archOfFoo ++ post =
        pre ++ (entityFooIs ++ (mid ++ (archOfFoo ++ post))) := by
      simp [List.append_assoc]
    rw [hassoc] at hent
    have hentD : countOccur kwEntity
        (lcs (pre ++ (entityFooIs ++ (mid ++ (archOfFoo ++ post))))) =
        countOccur kwEntity (lcs pre) + 1 + countOccur kwEntity (lcs mid) + 0 +
          countOccur kwEntity (lcs post) := by
      rw [countOccur_code_decomp kwEntity entityFooIs archOfFoo post (by decide) (by decide)
          hpre hmid ⟨'s', by decide, by decide⟩ ⟨'s', by decide, by decide⟩,
        show countOccur kwEntity (lcs entityFooIs) = 1 from by decide,
        show countOccur kwEntity (lcs archOfFoo) = 0 from by decide]
    rw [countOccur_code_decomp kwEntity (replEntity strBar) (replArch strArch strBar) post
        (by decide) (by decide) hpre hmid ⟨'s', by decide, by decide⟩
        ⟨'s', by decide, by decide⟩,
      show countOccur kwEntity (lcs (replEntity strBar)) = 1 from by decide,
      show countOccur kwEntity (lcs (replArch strArch strBar)) = 0 from by decide]
    omega
  have harchR : countOccur kwArchitecture
      (lcs (pre ++ (replEntity strBar ++ (mid ++ (replArch strArch strBar ++ post))))) = 1 := by
    have hassoc : pre ++ entityFooIs ++ mid ++ archOfFoo ++ post =
        pre ++ (entityFooIs ++ (mid ++ (archOfFoo ++ post))) := by
      simp [List.append_assoc]
    rw [hassoc] at harch
    have harchD : countOccur kwArchitecture
        (lcs (pre ++ (entityFooIs ++ (mid ++ (archOfFoo ++ post))))) =
        countOccur kwArchitecture (lcs pre) + 0 + countOccur kwArchitecture (lcs mid) + 1 +
          countOccur kwArchitecture (lcs post) := by
      rw [countOccur_code_decomp kwArchitecture entityFooIs archOfFoo post (by decide)
          (by decide) hpre hmid ⟨'s', by decide, by decide⟩ ⟨'s', by decide, by decide⟩,
        show countOccur kwArchitecture (lcs entityFooIs) = 0 from by decide,
        show countOccur kwArchitecture (lcs archOfFoo) = 1 from by decide]
    rw [countOccur_code_decomp kwArchitecture (replEntity strBar) (replArch strArch strBar)
        post (by decide) (by decide) hpre hmid ⟨'s', by decide, by decide⟩
        ⟨'s', by decide, by decide⟩,
      show countOccur kwArchitecture (lcs (replEntity strBar)) = 0 from by decide,
      show countOccur kwArchitecture (lcs (replArch strArch strBar)) = 1 from by decide]
    omega
  have hkER : kwEntity.isPrefixOf
      ((lcs (pre ++ (replEntity strBar ++ (mid ++ (replArch strArch strBar ++ post))))).drop
        pre.length) = true := by
    rw [drop_lcs_left, lcs_append]
    exact isPrefixOf_append_of _ (by decide)
  have hkAR : kwArchitecture.isPrefixOf
      ((lcs ((pre ++ (replEntity strBar ++ mid)) ++ (replArch strArch strBar ++ post))).drop
        (pre ++ (replEntity strBar ++ mid)).length) = true := by
    rw [drop_lcs_left, lcs_append]
    exact isPrefixOf_append_of _ (by decide)
  have harchR2 : countOccur kwArchitecture
      (lcs ((pre ++ (replEntity strBar ++ mid)) ++ (replArch strArch strBar ++ post))) = 1 := by
    rw [← hres2]
    exact harchR
  refine ⟨hmain.trans hdisp, ?_, ?_, ?_, ?_, ?_⟩
  · rw [hmain.trans hdisp]
    have h := occursB_of_decomp "entity bar is".data pre
      (mid ++ ("architecture arch of bar is".data ++ post))
    simpa using h
  · rw [hmain.trans hdisp]
    have h := occursB_of_decomp "architecture arch of bar is".data
      (pre ++ ("entity bar is".data ++ mid)) post
    simpa using h
  · rw [hmain, hres0]
    refine reSearch_none _ false ?_
    intro i hi
    by_cases hik : i = pre.length
    · subst hik
      rw [List.drop_left]
      exact matchEntityOf_repl_none (mid ++ (replArch strArch strBar ++ post))
        (by decide) (by decide) (by decide)
    · exact fail_at_of_none_of (fun s h => matchEntityOf_none_of h) (by decide) hentR hkER hik
  · rw [hmain, hres0, hres2]
    refine reSearch_none _ false ?_
    intro i hi
    by_cases hik : i = (pre ++ (replEntity strBar ++ mid)).length
    · subst hik
      rw [List.drop_left]
      exact matchArchOf_repl_none post (by decide) (by decide) (by decide)
    · exact fail_at_of_none_of (fun s h => matchArchOf_none_of h) (by decide) harchR2 hkAR hik
  · rw [hmain]
    have habR : pre = [] ∨ ∃ x, pre.getLast? = some x ∧ x ∉ strFoobar := by
      rcases hpre with rfl | ⟨c, hc, hw⟩
      · exact Or.inl rfl
      · exact Or.inr ⟨c, hc, not_word_not_mem hw (by decide)⟩
    have hcdR : ∃ x, mid.getLast? = some x ∧ x ∉ strFoobar := by
      rcases hmid with ⟨c, hc, hw⟩
      exact ⟨c, hc, not_word_not_mem hw (by decide)⟩
    have hlhs : countOccur strFoobar
        (pre ++ (replEntity strBar ++ (mid ++ (replArch strArch strBar ++ post)))) =
        countOccur strFoobar pre + countOccur strFoobar (replEntity strBar) +
          countOccur strFoobar mid + countOccur strFoobar (replArch strArch strBar) +
          countOccur strFoobar post :=
      countOccur_decomp5 _ _ _ _ _ (by decide) habR
        ⟨'s', getLast_replEntity strBar, by decide⟩ hcdR
        ⟨'s', getLast_replArch strBar, by decide⟩
    have hrhs : countOccur strFoobar
        (pre ++ (entityFooIs ++ (mid ++ (archOfFoo ++ post)))) =
        countOccur strFoobar pre + countOccur strFoobar entityFooIs +
          countOccur strFoobar mid + countOccur strFoobar archOfFoo +
          countOccur strFoobar post :=
      countOccur_decomp5 _ _ _ _ _ (by decide) habR ⟨'s', by decide, by decide⟩ hcdR
        ⟨'s', by decide, by decide⟩
    rw [show pre ++ replEntity strBar ++ mid ++ replArch strArch strBar ++ post =
        pre ++ (replEntity strBar ++ (mid ++ (replArch strArch strBar ++ post))) from by
      simp [List.append_assoc]]
    rw [show pre ++ entityFooIs ++ mid ++ archOfFoo ++ post =
        pre ++ (entityFooIs ++ (mid ++ (archOfFoo ++ post))) from by
      simp [List.append_assoc]]
    rw [hlhs, hrhs,
      show countOccur strFoobar (replEntity strBar) = 0 from by decide,
      show countOccur strFoobar (replArch strArch strBar) = 0 from by decide,
      show countOccur strFoobar entityFooIs = 0 from by decide,
      show countOccur strFoobar archOfFoo = 0 from by decide]

/-- C2 witness: the corrected theorem applied at the concrete source
`entity foo is architecture arch of foo is` (empty prefix, one-space
middle, empty suffix). -/
theorem C2_witness :
    replace_entity_name ([] ++ entityFooIs ++ [' '] ++ archOfFoo ++ []) strFoo strBar
        strVhdl =
      [] ++ "entity bar is".data ++ [' '] ++ "architecture arch of bar is".data ++ [] ∧
    occursB "entity bar is".data
      (replace_entity_name ([] ++ entityFooIs ++ [' '] ++ archOfFoo ++ []) strFoo strBar
        strVhdl) = true ∧
    occursB "architecture arch of bar is".data
      (replace_entity_name ([] ++ entityFooIs ++ [' '] ++ archOfFoo ++ []) strFoo strBar
        strVhdl) = true ∧
    reSearch (matchEntityOf strFoo) false
      (replace_entity_name ([] ++ entityFooIs ++ [' '] ++ archOfFoo ++ []) strFoo strBar
        strVhdl) = none ∧
    reSearch (matchArchOf strFoo) false
      (replace_entity_name ([] ++ entityFooIs ++ [' '] ++ archOfFoo ++ []) strFoo strBar
        strVhdl) = none ∧
    countOccur strFoobar
      (replace_entity_name ([] ++ entityFooIs ++ [' '] ++ archOfFoo ++ []) strFoo strBar
        strVhdl) =
      countOccur strFoobar ([] ++ entityFooIs ++ [' '] ++ archOfFoo ++ []) :=
  C2_rewrite_correct [] [' '] [] (Or.inl rfl) ⟨' ', rfl, by decide⟩ (by decide) (by decide)

/-- C1 counterexample: parsing `entity foo is architecture a of foo is --
foo` with requested name `bar` succeeds with `entity_name = bar`, yet the
returned content still contains the original identifier `foo` (in the
trailing comment), although `foo ≠ bar`: the rewrite touches only the
declaration sites, so the claim's `content contains no occurrence of the
original identifier` is false. -/
theorem C1_counterexample :
    (parse_hdl_code "entity foo is architecture a of foo is -- foo".data
        "bar".data).toOption.map (fun hdl => (hdl.entity_name, occursB strFoo hdl.content)) =
      some ("bar".data, true) ∧
    extract_entity_name (clean_code (extract_code_and_language
        "entity foo is architecture a of foo is -- foo".data).2) strVhdl = some strFoo ∧
    strFoo ≠ "bar".data := by
  decide

/-- C1 (corrected): when the extracted-and-cleaned code is a VHDL source of
the decomposed single-declaration shape with original entity name `foo`,
and the requested circuit name is a word identifier other than `foo`
(case-insensitively) not containing the keywords, `parse_hdl_code`
succeeds, the returned `entity_name` is the requested name, the content
carries the rewritten declarations `entity NAME is` and
`architecture arch of NAME is`, and no boundary-anchored declaration of the
original name `foo` remains; occurrences of the original identifier outside
the declaration sites may persist (see the counterexample). -/
theorem C1_parse_invariant (response circuit_name pre mid post : List Char)
    (hname_ne : circuit_name ≠ []) (hname_w : circuit_name.all isWordChar = true)
    (hname_e : occursB kwEntity (lcs circuit_name) = false)
    (hname_a : occursB kwArchitecture (lcs circuit_name) = false)
    (hname_foo : lcs circuit_name ≠ strFoo)
    (hlang : (extract_code_and_language response).1 = strVhdl)
    (hcode : clean_code (extract_code_and_language response).2 =
      pre ++ entityFooIs ++ mid ++ archOfFoo ++ post)
    (hpre : pre = [] ∨ ∃ c, pre.getLast? = some c ∧ isWordChar c = false)
    (hmid : ∃ c, mid.getLast? = some c ∧ isWordChar c = false)
    (hent : countOccur kwEntity (lcs (pre ++ entityFooIs ++ mid ++ archOfFoo ++ post)) = 1)
    (harch : countOccur kwArchitecture
      (lcs (pre ++ entityFooIs ++ mid ++ archOfFoo ++ post)) = 1) :
    ∃ hdl, parse_hdl_code response circuit_name = Except.ok hdl ∧
      hdl.entity_name = circuit_name ∧
      hdl.content =
        pre ++ replEntity circuit_name ++ mid ++ replArch strArch circuit_name ++ post ∧
      occursB (replEntity circuit_name) hdl.content = true ∧
      reSearch (matchEntityOf strFoo) false hdl.content = none ∧
      reSearch (matchArchOf strFoo) false hdl.content = none := by
  have hassoc : pre ++ entityFooIs ++ mid ++ archOfFoo ++ post =
      pre ++ (entityFooIs ++ (mid ++ (archOfFoo ++ post))) := by
    simp [List.append_assoc]
  have hassoc3 : pre ++ (entityFooIs ++ (mid ++ (archOfFoo ++ post))) =
      (pre ++ (entityFooIs ++ mid)) ++ (archOfFoo ++ post) := by
    simp [List.append_assoc]
  have hentA : countOccur kwEntity
      (lcs (pre ++ (entityFooIs ++ (mid ++ (archOfFoo ++ post))))) = 1 := by
    rw [← hassoc]
    exact hent
  have harchA : countOccur kwArchitecture
      (lcs (pre ++ (entityFooIs ++ (mid ++ (archOfFoo ++ post))))) = 1 := by
    rw [← hassoc]
    exact harch
  have harchA3 : countOccur kwArchitecture
      (lcs ((pre ++ (entityFooIs ++ mid)) ++ (archOfFoo ++ post))) = 1 := by
    rw [← hassoc3]
    exact harchA
  have hkE : kwEntity.isPrefixOf
      ((lcs (pre ++ (entityFooIs ++ (mid ++ (archOfFoo ++ post))))).drop pre.length) = true := by
    rw [drop_lcs_left, lcs_append]
    exact isPrefixOf_append_of _ (by decide)
  have hkA3 : kwArchitecture.isPrefixOf
      ((lcs ((pre ++ (entityFooIs ++ mid)) ++ (archOfFoo ++ post))).drop
        (pre ++ (entityFooIs ++ mid)).length) = true := by
    rw [drop_lcs_left, lcs_append]
    exact isPrefixOf_append_of _ (by decide)
  have hbit1 : afterBit false pre = false := by
    rcases hpre with rfl | ⟨c, hc, hw⟩
    · rfl
    · exact afterBit_last hc hw
  have hbit3 : afterBit false (pre ++ (entityFooIs ++ mid)) = false := by
    rw [afterBit_append, afterBit_append]
    rcases hmid with ⟨c, hc, hw⟩
    exact afterBit_last hc hw
  have hEne : entityFooIs ++ (mid ++ (archOfFoo ++ post)) ≠ [] := by
    intro h
    exact absurd (List.append_eq_nil.mp h).1 (by decide)
  have hAne : archOfFoo ++ post ≠ [] := by
    intro h
    exact absurd (List.append_eq_nil.mp h).1 (by decide)
  have hsE : reSearch matchEntityV false
      (pre ++ (entityFooIs ++ (mid ++ (archOfFoo ++ post)))) =
      some (mid ++ (archOfFoo ++ post)) := by
    refine reSearch_found _ false ?_ hbit1 (matchEntityV_at _) hEne
    intro i hi
    rw [← List.drop_append_of_le_length (le_of_lt hi)]
    exact fail_at_of_none_of (fun s h => matchEntityV_none_of h) (by decide) hentA hkE
      (by omega)
  have hsA : reSearch matchArchV false
      ((pre ++ (entityFooIs ++ mid)) ++ (archOfFoo ++ post)) = some post := by
    refine reSearch_found _ false ?_ hbit3 (matchArchV_at _) hAne
    intro i hi
    rw [← List.drop_append_of_le_length (le_of_lt hi)]
    exact fail_at_of_none_of (fun s h => matchArchV_none_of h) (by decide) harchA3 hkA3
      (by omega)
  have hsD : reSearch matchEntityDecl false
      (pre ++ (entityFooIs ++ (mid ++ (archOfFoo ++ post)))) =
      some (strFoo, mid ++ (archOfFoo ++ post)) := by
    refine reSearch_found _ false ?_ hbit1 (matchEntityDecl_at _) hEne
    intro i hi
    rw [← List.drop_append_of_le_length (le_of_lt hi)]
    exact fail_at_of_none_of (fun s h => matchEntityDecl_none_of h) (by decide) hentA hkE
      (by omega)
  have hval : validate_basic_syntax' (pre ++ entityFooIs ++ mid ++ archOfFoo ++ post)
      strVhdl = Except.ok () := by
    unfold validate_basic_syntax'
    rw [hassoc]
    have hsA2 : reSearch matchArchV false
        (pre ++ (entityFooIs ++ (mid ++ (archOfFoo ++ post)))) = some post := by
      rw [hassoc3]
      exact hsA
    simp [hsE, hsA2]
  have horig : extract_entity_name (pre ++ entityFooIs ++ mid ++ archOfFoo ++ post)
      strVhdl = some strFoo := by
    unfold extract_entity_name
    rw [hassoc]
    simp [hsD]
  have hne2 : strFoo ≠ circuit_name := by
    intro h
    apply hname_foo
    rw [← h]
    decide
  have hrepl := rewrite_decomposed pre mid post circuit_name hname_ne hname_w hname_a
    hpre hmid hent harch
  have hparse : parse_hdl_code response circuit_name = Except.ok
      { content :=
          pre ++ replEntity circuit_name ++ mid ++ replArch strArch circuit_name ++ post
        language := strVhdl
        entity_name := circuit_name
        file_extension := strVhdl
        metadata := some (parse_metadata (some strFoo)
          (pre ++ replEntity circuit_name ++ mid ++ replArch strArch circuit_name ++ post)
          strVhdl) } := by
    unfold parse_hdl_code
    dsimp only
    rw [hlang, hcode, hval]
    dsimp only
    rw [horig]
    dsimp only
    rw [if_pos hne2, hrepl]
    rfl
  have hres0 : pre ++ replEntity circuit_name ++ mid ++ replArch strArch circuit_name ++
      post =
      pre ++ (replEntity circuit_name ++ (mid ++ (replArch strArch circuit_name ++ post))) := by
    simp [List.append_assoc]
  have hres2 : pre ++ (replEntity circuit_name ++ (mid ++ (replArch strArch circuit_name ++
      post))) =
      (pre ++ (replEntity circuit_name ++ mid)) ++ (replArch strArch circuit_name ++ post) := by
    simp [List.append_assoc]
  have hentC : countOccur kwEntity
      (lcs (pre ++ (replEntity circuit_name ++
        (mid ++ (replArch strArch circuit_name ++ post))))) = 1 := by
    have hentD : countOccur kwEntity
        (lcs (pre ++ (entityFooIs ++ (mid ++ (archOfFoo ++ post))))) =
        countOccur kwEntity (lcs pre) + 1 + countOccur kwEntity (lcs mid) + 0 +
          countOccur kwEntity (lcs post) := by
      rw [countOccur_code_decomp kwEntity entityFooIs archOfFoo post (by decide) (by decide)
          hpre hmid ⟨'s', by decide, by decide⟩ ⟨'s', by decide, by decide⟩,
        show countOccur kwEntity (lcs entityFooIs) = 1 from by decide,
        show countOccur kwEntity (lcs archOfFoo) = 0 from by decide]
    rw [countOccur_code_decomp kwEntity (replEntity circuit_name)
        (replArch strArch circuit_name) post (by decide) (by decide) hpre hmid
        ⟨'s', getLast_lcs_replEntity circuit_name, by decide⟩
        ⟨'s', getLast_lcs_replArch circuit_name, by decide⟩,
      countOccur_replEntity (by decide) (by decide) hname_e,
      countOccur_replArch (by decide) (by decide) hname_e,
      show countOccur kwEntity kwEntity = 1 from by decide,
      show countOccur kwEntity kwIs = 0 from by decide,
      show countOccur kwEntity kwArchitecture = 0 from by decide,
      show countOccur kwEntity strArch = 0 from by decide,
      show countOccur kwEntity kwOf = 0 from by decide]
    omega
  have harchC : countOccur kwArchitecture
      (lcs ((pre ++ (replEntity circuit_name ++ mid)) ++
        (replArch strArch circuit_name ++ post))) = 1 := by
    have harchD : countOccur kwArchitecture
        (lcs (pre ++ (entityFooIs ++ (mid ++ (archOfFoo ++ post))))) =
        countOccur kwArchitecture (lcs pre) + 0 + countOccur kwArchitecture (lcs mid) + 1 +
          countOccur kwArchitecture (lcs post) := by
      rw [countOccur_code_decomp kwArchitecture entityFooIs archOfFoo post (by decide)
          (by decide) hpre hmid ⟨'s', by decide, by decide⟩ ⟨'s', by decide, by decide⟩,
        show countOccur kwArchitecture (lcs entityFooIs) = 0 from by decide,
        show countOccur kwArchitecture (lcs archOfFoo) = 1 from by decide]
    rw [← hres2,
      countOccur_code_decomp kwArchitecture (replEntity circuit_name)
        (replArch strArch circuit_name) post (by decide) (by decide) hpre hmid
        ⟨'s', getLast_lcs_replEntity circuit_name, by decide⟩
        ⟨'s', getLast_lcs_replArch circuit_name, by decide⟩,
      countOccur_replEntity (by decide) (by decide) hname_a,
      countOccur_replArch (by decide) (by decide) hname_a,
      show countOccur kwArchitecture kwEntity = 0 from by decide,
      show countOccur kwArchitecture kwIs = 0 from by decide,
      show countOccur kwArchitecture kwArchitecture = 1 from by decide,
      show countOccur kwArchitecture strArch = 0 from by decide,
      show countOccur kwArchitecture kwOf = 0 from by decide]
    omega
  have hkEC : kwEntity.isPrefixOf
      ((lcs (pre ++ (replEntity circuit_name ++
        (mid ++ (replArch strArch circuit_name ++ post))))).drop pre.length) = true := by
    rw [drop_lcs_left, lcs_append]
    apply isPrefixOf_append_of
    rw [lcs_replEntity]
    exact isPrefixOf_append_of _ (isPrefixOf_append_of _ (by decide))
  have hkAC : kwArchitecture.isPrefixOf
      ((lcs ((pre ++ (replEntity circuit_name ++ mid)) ++
        (replArch strArch circuit_name ++ post))).drop
        (pre ++ (replEntity circuit_name ++ mid)).length) = true := by
    rw [drop_lcs_left, lcs_append]
    apply isPrefixOf_append_of
    rw [lcs_replArch]
    exact isPrefixOf_append_of _ (isPrefixOf_append_of _ (isPrefixOf_append_of _
      (isPrefixOf_append_of _ (by decide))))
  refine ⟨_, hparse, rfl, rfl, ?_, ?_, ?_⟩
  · show occursB (replEntity circuit_name)
      (pre ++ replEntity circuit_name ++ mid ++ replArch strArch circuit_name ++ post) = true
    have h := occursB_of_decomp (replEntity circuit_name) pre
      (mid ++ (replArch strArch circuit_name ++ post))
    simpa using h
  · show reSearch (matchEntityOf strFoo) false
      (pre ++ replEntity circuit_name ++ mid ++ replArch strArch circuit_name ++ post) = none
    rw [hres0]
    refine reSearch_none _ false ?_
    intro i hi
    by_cases hik : i = pre.length
    · subst hik
      rw [List.drop_left]
      exact matchEntityOf_repl_none (mid ++ (replArch strArch circuit_name ++ post))
        hname_ne hname_w hname_foo
    · exact fail_at_of_none_of (fun s h => matchEntityOf_none_of h) (by decide) hentC hkEC hik
  · show reSearch (matchArchOf strFoo) false
      (pre ++ replEntity circuit_name ++ mid ++ replArch strArch circuit_name ++ post) = none
    rw [hres0, hres2]
    refine reSearch_none _ false ?_
    intro i hi
    by_cases hik : i = (pre ++ (replEntity circuit_name ++ mid)).length
    · subst hik
      rw [List.drop_left]
      exact matchArchOf_repl_none post hname_ne hname_w hname_foo
    · exact fail_at_of_none_of (fun s h => matchArchOf_none_of h) (by decide) harchC hkAC hik

/-- C1 witness: the corrected theorem applied to the concrete response
`entity foo is architecture arch of foo is` and requested name `bar`. -/
theorem C1_witness :
    ∃ hdl, parse_hdl_code "entity foo is architecture arch of foo is".data strBar =
        Except.ok hdl ∧
      hdl.entity_name = strBar ∧
      hdl.content = [] ++ replEntity strBar ++ [' '] ++ replArch strArch strBar ++ [] ∧
      occursB (replEntity strBar) hdl.content = true ∧
      reSearch (matchEntityOf strFoo) false hdl.content = none ∧
      reSearch (matchArchOf strFoo) false hdl.content = none :=
  C1_parse_invariant "entity foo is architecture arch of foo is".data strBar [] [' '] []
    (by decide) (by decide) (by decide) (by decide) (by decide) (by decide) (by decide)
    (Or.inl rfl) ⟨' ', rfl, by decide⟩ (by decide) (by decide)

/-- C3: for every oracle behaviour of the external compiler processes and
every `HDLCode`/session, `compile_hdl` returns a `CompilationResult` value
(never propagates an exception), and when the compiler invocations exceed
the configured timeout the result has `success = false` with an
`error_message` containing the configured timeout value. -/
theorem C3_compile_never_raises :
    (∀ (w : CompilerWorld) (cfg : HPConfig) (hdl : HDLCode) (sid : List Char),
      ∃ r, compile_hdl w cfg hdl sid = Except.ok r) ∧
    (∀ (w : CompilerWorld) (cfg : HPConfig) (hdl : HDLCode) (sid : List Char),
      (hdl.language = strVhdl ∨ hdl.language = strVerilog) →
      (∀ cmd, w.run cmd = RunOutcome.timedOut) →
      ∃ r, compile_hdl w cfg hdl sid = Except.ok r ∧ r.success = false ∧
        ∃ m, r.error_message = some m ∧
          occursB (toString cfg.timeout).data m = true) := by
  constructor
  · intro w cfg hdl sid
    unfold compile_hdl
    by_cases h1 : (hdl.language == strVhdl) = true
    · simp only [h1, if_true]
      exact ⟨_, rfl⟩
    · simp only [h1, if_false, Bool.false_eq_true]
      by_cases h2 : (hdl.language == strVerilog) = true
      · simp only [h2, if_true]
        exact ⟨_, rfl⟩
      · simp only [h2, if_false, Bool.false_eq_true]
        exact ⟨_, rfl⟩
  · intro w cfg hdl sid hlang htime
    rcases hlang with hl | hl
    · unfold compile_hdl
      have h1 : (hdl.language == strVhdl) = true := by rw [hl]; decide
      simp only [h1, if_true]
      unfold compile_vhdl
      simp only [htime]
      refine ⟨_, rfl, rfl, timeoutMsg cfg.timeout, rfl, ?_⟩
      exact occursB_of_decomp _ msgTimeoutPre msgTimeoutPost
    · unfold compile_hdl
      by_cases h1 : (hdl.language == strVhdl) = true
      · simp only [h1, if_true]
        unfold compile_vhdl
        simp only [htime]
        refine ⟨_, rfl, rfl, timeoutMsg cfg.timeout, rfl, ?_⟩
        exact occursB_of_decomp _ msgTimeoutPre msgTimeoutPost
      · have h2 : (hdl.language == strVerilog) = true := by rw [hl]; decide
        simp only [h1, if_false, Bool.false_eq_true, h2, if_true]
        unfold compile_verilog
        simp only [htime]
        refine ⟨_, rfl, rfl, timeoutMsg cfg.timeout, rfl, ?_⟩
        exact occursB_of_decomp _ msgTimeoutPre msgTimeoutPost

/-- C3 witness: with an always-timing-out compiler oracle and timeout 60,
compilation of a VHDL unit returns a failed result whose message contains
`60`. -/
theorem C3_witness :
    ∃ r, compile_hdl ⟨fun _ => RunOutcome.timedOut, fun _ => []⟩
        ⟨"ghdl".data, "iverilog".data, "build".data, 60, [], []⟩
        ⟨[], strVhdl, "a".data, strVhdl, none⟩ ("s1".data) = Except.ok r ∧
      r.success = false ∧
      ∃ m, r.error_message = some m ∧ occursB (toString 60).data m = true :=
  C3_compile_never_raises.2 ⟨fun _ => RunOutcome.timedOut, fun _ => []⟩
    ⟨"ghdl".data, "iverilog".data, "build".data, 60, [], []⟩
    ⟨[], strVhdl, "a".data, strVhdl, none⟩ ("s1".data)
    (Or.inl rfl) (fun _ => rfl)

/-! ## C4 — export proceeds structurally on compilation failure -/

/-- C4: for every failed `CompilationResult` (and a filesystem in which
the pipeline's HDL source file exists, as `compile_hdl` guarantees), the
archive consists of exactly the source member `<entity>.<ext>`, the
`project_info.json` manifest with `compilation_success` false, and the
`README.txt`, whose text contains the literal compilation error message;
no build artifact of the `CompilationResult` is included, and the export
itself reports success. -/
theorem C4_export_on_failure (fs : List Char → Option (List Char)) (cfg : HPConfig)
    (hdl : HDLCode) (cr : CompilationResult) (export_dir session_id : List Char)
    (hfail : cr.success = false)
    (c : List Char)
    (hsrc : fs (joinPath (joinPath cfg.work_directory session_id)
              (hdl.entity_name ++ '.' :: hdl.file_extension)) = some c) :
    (export_project fs cfg hdl cr export_dir session_id).2 =
      [(hdl.entity_name ++ '.' :: hdl.file_extension,
        ZipData.fromFile (joinPath (joinPath cfg.work_directory session_id)
          (hdl.entity_name ++ '.' :: hdl.file_extension)) c),
       (nameProjectInfo, ZipData.manifestJson (export_manifest hdl cr)),
       (nameReadme, ZipData.text (generate_project_readme hdl cr))] ∧
    metaGet (export_manifest hdl cr) keyCompilationSuccess = some (Jv.jbool false) ∧
    (∀ m, cr.error_message = some m →
      occursB m (generate_project_readme hdl cr) = true) ∧
    (export_project fs cfg hdl cr export_dir session_id).1.success = true := by
  refine ⟨?_, ?_, ?_, rfl⟩
  · unfold export_project
    simp only [hsrc, hfail]
    simp
  · have h : metaGet (export_manifest hdl cr) keyCompilationSuccess =
        some (Jv.jbool cr.success) := by
      unfold export_manifest metaGet
      simp only [List.find?]
      norm_num [keyProjectName, keyHdlLanguage, keyGeneratedBy, keyCompilationSuccess]
    rw [h, hfail]
  · intro m hm
    have h : generate_project_readme hdl cr =
        (readmeTitle ++ hdl.entity_name ++ '\n' ::
          (List.replicate (30 + hdl.entity_name.length) '=') ++
          readmeInfoPre ++ hdl.entity_name ++
          readmeLangPre ++ toUpperChars hdl.language ++
          readmeGenBy ++ strFAILED ++
          readmeFilesPre ++ hdl.entity_name ++ '.' :: hdl.file_extension ++
          readmeFilesPost ++
          (match hdl.metadata with
           | some md =>
             if md.isEmpty then [] else
               readmeStatsPre ++ fmtMetaInt md keyLinesOfCode ++
               readmeStatsSignals ++ fmtMetaInt md keySignalsCount ++
               readmeStatsProcesses ++ fmtMetaInt md keyProcessesCount ++
               readmeStatsLibs ++ fmtMetaLibs md ++
               readmeStatsTb ++ fmtMetaTb md ++ readmeBlockEnd
           | none => []) ++
          (match cr.warnings with
           | some ws => if ws.isEmpty then [] else
               readmeWarningsPre ++ joinWithChar '\n' ws ++ readmeBlockEnd
           | none => []) ++
          readmeErrorPre) ++ m ++ (readmeBlockEnd ++ readmeUsage) := by
      unfold generate_project_readme
      rw [hfail, hm]
      simp [pyOptStr, List.append_assoc]
    rw [h]
    exact occursB_of_decomp m _ _

/-- C4 witness at a concrete failed compilation. -/
theorem C4_witness :
    (export_project (fun _ => some ("src".data))
        ⟨"ghdl".data, "iverilog".data, "build".data, 60, [], []⟩
        ⟨[], strVhdl, "a".data, strVhdl, none⟩
        ⟨false, "a".data, strVhdl, [], some ("boom".data), none, 0⟩
        ("out".data) ("s1".data)).2 =
      [(("a".data) ++ '.' :: strVhdl,
        ZipData.fromFile (joinPath (joinPath ("build".data) ("s1".data))
          (("a".data) ++ '.' :: strVhdl)) ("src".data)),
       (nameProjectInfo, ZipData.manifestJson
         (export_manifest ⟨[], strVhdl, "a".data, strVhdl, none⟩
           ⟨false, "a".data, strVhdl, [], some ("boom".data), none, 0⟩)),
       (nameReadme, ZipData.text
         (generate_project_readme ⟨[], strVhdl, "a".data, strVhdl, none⟩
           ⟨false, "a".data, strVhdl, [], some ("boom".data), none, 0⟩))] ∧
    occursB ("boom".data)
      (generate_project_readme ⟨[], strVhdl, "a".data, strVhdl, none⟩
        ⟨false, "a".data, strVhdl, [], some ("boom".data), none, 0⟩) = true := by
  have h := C4_export_on_failure (fun _ => some ("src".data))
    ⟨"ghdl".data, "iverilog".data, "build".data, 60, [], []⟩
    ⟨[], strVhdl, "a".data, strVhdl, none⟩
    ⟨false, "a".data, strVhdl, [], some ("boom".data), none, 0⟩
    ("out".data) ("s1".data) rfl ("src".data) rfl
  exact ⟨h.1, h.2.2.1 ("boom".data) rfl⟩

/-! ## C8 — manifest schema -/

/-- C8 counterexample: the metadata dictionary written into the manifest
contains a sixth key, `original_entity_name`, in addition to the five the
claim lists, so it does not consist of exactly those five keys. -/
theorem C8_counterexample :
    (match parse_hdl_code ("entity foo is architecture a of foo is".data) ("foo".data) with
      | Except.ok hdl =>
        (match hdl.metadata with
         | some m => m.map Prod.fst
         | none => [])
      | Except.error _ => []) =
      [keyOriginalEntityName, keyLinesOfCode, keyHasTestbench, keyLibrariesUsed,
       keySignalsCount, keyProcessesCount] ∧
    [keyOriginalEntityName, keyLinesOfCode, keyHasTestbench, keyLibrariesUsed,
       keySignalsCount, keyProcessesCount] ≠
      [keyLinesOfCode, keyHasTestbench, keyLibrariesUsed, keySignalsCount,
       keyProcessesCount] := by
  constructor
  · rfl
  · decide

/-- C8 as amended: for every parsed project and compilation result, the
manifest consists of the keys `project_name`, `hdl_language`,
`generated_by`, `compilation_success`, `metadata`, with the stated value
types (`hdl_language` one of `vhdl`/`verilog`, `compilation_success` the
result's boolean); the metadata object consists of the five claimed typed
keys *plus* a leading `original_entity_name` key. -/
theorem C8_manifest_schema (resp name : List Char) (hdl : HDLCode) (cr : CompilationResult)
    (h : parse_hdl_code resp name = Except.ok hdl) :
    ((export_manifest hdl cr).map Prod.fst =
      [keyProjectName, keyHdlLanguage, keyGeneratedBy, keyCompilationSuccess, keyMetadata]) ∧
    metaGet (export_manifest hdl cr) keyProjectName = some (Jv.jstr hdl.entity_name) ∧
    metaGet (export_manifest hdl cr) keyHdlLanguage = some (Jv.jstr hdl.language) ∧
    (hdl.language = strVhdl ∨ hdl.language = strVerilog) ∧
    metaGet (export_manifest hdl cr) keyGeneratedBy = some (Jv.jstr strHdlAiProteus) ∧
    metaGet (export_manifest hdl cr) keyCompilationSuccess = some (Jv.jbool cr.success) ∧
    ∃ orig lines tb libs sigs procs,
      hdl.metadata = some
        [(keyOriginalEntityName, orig), (keyLinesOfCode, Jv.jint lines),
         (keyHasTestbench, Jv.jbool tb),
         (keyLibrariesUsed, Jv.jarr (List.map Jv.jstr libs)),
         (keySignalsCount, Jv.jint sigs), (keyProcessesCount, Jv.jint procs)] ∧
      metaGet (export_manifest hdl cr) keyMetadata = some (Jv.jobj
        [(keyOriginalEntityName, orig), (keyLinesOfCode, Jv.jint lines),
         (keyHasTestbench, Jv.jbool tb),
         (keyLibrariesUsed, Jv.jarr (List.map Jv.jstr libs)),
         (keySignalsCount, Jv.jint sigs), (keyProcessesCount, Jv.jint procs)]) := by
  unfold parse_hdl_code at h
  dsimp only at h
  cases hv : validate_basic_syntax' (clean_code (extract_code_and_language resp).2)
      (extract_code_and_language resp).1 with
  | error e =>
    rw [hv] at h
    cases h
  | ok u =>
    rw [hv] at h
    have hh : hdl =
        { content :=
            match extract_entity_name (clean_code (extract_code_and_language resp).2)
                (extract_code_and_language resp).1 with
            | some o =>
              if o ≠ name then
                replace_entity_name (clean_code (extract_code_and_language resp).2) o name
                  (extract_code_and_language resp).1
              else clean_code (extract_code_and_language resp).2
            | none => clean_code (extract_code_and_language resp).2
          language := (extract_code_and_language resp).1
          entity_name := name
          file_extension :=
            if (extract_code_and_language resp).1 == strVhdl then strVhdl else strV
          metadata := some (parse_metadata
            (extract_entity_name (clean_code (extract_code_and_language resp).2)
              (extract_code_and_language resp).1)
            (match extract_entity_name (clean_code (extract_code_and_language resp).2)
                (extract_code_and_language resp).1 with
             | some o =>
               if o ≠ name then
                 replace_entity_name (clean_code (extract_code_and_language resp).2) o name
                   (extract_code_and_language resp).1
               else clean_code (extract_code_and_language resp).2
             | none => clean_code (extract_code_and_language resp).2)
            (extract_code_and_language resp).1) } := by
      injection h with h
      exact h.symm
    subst hh
    refine ⟨rfl, rfl, rfl, extract_language_total resp, rfl, rfl, ?_⟩
    refine ⟨_, _, _, extract_libraries _ _, _, _, rfl, rfl⟩

/-- C8 witness at a concrete parsed project. -/
theorem C8_witness :
    ∃ hdl, parse_hdl_code ("entity foo is architecture a of foo is".data) ("foo".data) =
        Except.ok hdl ∧
      (export_manifest hdl
          ⟨false, "foo".data, strVhdl, [], some ("boom".data), none, 0⟩).map Prod.fst =
        [keyProjectName, keyHdlLanguage, keyGeneratedBy, keyCompilationSuccess, keyMetadata] := by
  cases hp : parse_hdl_code ("entity foo is architecture a of foo is".data) ("foo".data) with
  | error e =>
    have hok : (match parse_hdl_code ("entity foo is architecture a of foo is".data)
        ("foo".data) with
      | Except.ok _ => true
      | Except.error _ => false) = true := by decide
    rw [hp] at hok
    cases hok
  | ok hdl =>
    exact ⟨hdl, rfl,
      (C8_manifest_schema ("entity foo is architecture a of foo is".data) ("foo".data) hdl
        ⟨false, "foo".data, strVhdl, [], some ("boom".data), none, 0⟩ hp).1⟩

end HdlProteus
